import Mathlib

/-!
Verification of the `classifying_shapes` notebook and of the Vietoris–Rips
persistent-homology engine it invokes.

Part 1 embeds the notebook's `make_matrix` grid construction (two variants:
the projective-plane grid and the Klein-bottle grid) as pure functions over ℚ,
with the random draws supplied by an explicit stream `g : ℕ → ℚ`.

Part 2 models the persistence engine (distance-matrix validation, Vietoris–Rips
filtration construction, boundary-matrix reduction over the two-element field,
and diagram assembly).  The engine is not part of the repository excerpt, so it
is modelled from the specification.
-/

/-- The simultaneous assignment `M[a, b] = M[b, a] = v` on the dense array:
both symmetric positions receive the same value `v`. -/
def updSym (M : ℕ → ℕ → ℚ) (a b : ℕ) (v : ℚ) : ℕ → ℕ → ℚ :=
  fun i j => if (i = a ∧ j = b) ∨ (i = b ∧ j = a) then v else M i j

/-- The noise expression `1 + 0.15 * (np.random.rand(1)[0] - 0.5)` applied to a
draw `x` from the random source. -/
def noisy (x : ℚ) : ℚ := 1 + (15 / 100) * (x - 1 / 2)

/-- The (at most four) symmetric assignments performed by the loop body of
`make_matrix` for the grid cell `(r, c)`, in source order, as target index
pairs.  `tw` selects the variant: `true` is the cell-24 version (vertical
*twisted* boundary identification, target `n - i - 1`), `false` the cell-25
version (vertical *untwisted* identification, target `i + cols - 1`).  The
other three assignments are common to both versions. -/
def cellTargets (tw : Bool) (rows cols r c : ℕ) : List (ℕ × ℕ) :=
  let n := rows * cols
  let i := r * cols + c
  (if 0 < c then [(i - 1, i)] else []) ++
  (if 0 < r then [(i - cols, i)] else []) ++
  (if c = 0 then [((if tw then n - i - 1 else i + cols - 1), i)] else []) ++
  (if r = 0 then [(n - i - 1, i)] else [])

/-- Perform one symmetric assignment, consuming one draw from the stream `g`:
the state is the matrix together with the number of draws consumed so far. -/
def assign (g : ℕ → ℚ) (s : (ℕ → ℕ → ℚ) × ℕ) (ab : ℕ × ℕ) : (ℕ → ℕ → ℚ) × ℕ :=
  (updSym s.1 ab.1 ab.2 (noisy (g s.2)), s.2 + 1)

/-- One iteration of the doubly nested loop body of `make_matrix`. -/
def cellStep (tw : Bool) (rows cols : ℕ) (g : ℕ → ℚ) (s : (ℕ → ℕ → ℚ) × ℕ)
    (r c : ℕ) : (ℕ → ℕ → ℚ) × ℕ :=
  (cellTargets tw rows cols r c).foldl (assign g) s

/-- The full doubly nested loop of `make_matrix`, row-major, starting from the
zero matrix and zero draws consumed. -/
def mmFold (tw : Bool) (rows cols : ℕ) (g : ℕ → ℚ) : (ℕ → ℕ → ℚ) × ℕ :=
  (List.range rows).foldl
    (fun s r => (List.range cols).foldl (fun s' c => cellStep tw rows cols g s' r c) s)
    (fun _ _ => (0 : ℚ), 0)

/-- The notebook's `make_matrix(rows, cols)`: starts from the zero
`(rows*cols) × (rows*cols)` matrix and performs the four conditional symmetric
assignments for every grid cell `(r, c)`. -/
def make_matrix (tw : Bool) (rows cols : ℕ) (g : ℕ → ℚ) : ℕ → ℕ → ℚ :=
  (mmFold tw rows cols g).1

/-- Fold invariance helper: a predicate preserved by every step embraces the
fold result. -/
theorem foldl_preserves {β γ : Type} {P : β → Prop} (f : β → γ → β) (l : List γ)
    (b : β) (hb : P b) (hf : ∀ s x, x ∈ l → P s → P (f s x)) : P (l.foldl f b) := by
  induction l generalizing b with
  | nil => exact hb
  | cons x xs ih =>
    exact ih _ (hf b x (List.mem_cons_self x xs) hb)
      (fun s y hy hs => hf s y (List.mem_cons_of_mem x hy) hs)

theorem updSym_symm {M : ℕ → ℕ → ℚ} (h : ∀ i j, M i j = M j i) (a b : ℕ) (v : ℚ) :
    ∀ i j, updSym M a b v i j = updSym M a b v j i := by
  intro i j
  unfold updSym
  by_cases hc : (i = a ∧ j = b) ∨ (i = b ∧ j = a)
  · rw [if_pos hc, if_pos (by tauto)]
  · rw [if_neg hc, if_neg (by tauto)]
    exact h i j

theorem updSym_supp {M : ℕ → ℕ → ℚ} {n : ℕ}
    (h : ∀ i j, n ≤ i ∨ n ≤ j → M i j = 0) {a b : ℕ} (ha : a < n) (hb : b < n)
    (v : ℚ) : ∀ i j, n ≤ i ∨ n ≤ j → updSym M a b v i j = 0 := by
  intro i j hij
  unfold updSym
  rw [if_neg, h i j hij]
  rintro (⟨rfl, rfl⟩ | ⟨rfl, rfl⟩) <;> omega

theorem updSym_diag {M : ℕ → ℕ → ℚ} (h : ∀ i, M i i = 0) {a b : ℕ} (hab : a ≠ b)
    (v : ℚ) : ∀ i, updSym M a b v i i = 0 := by
  intro i
  unfold updSym
  rw [if_neg, h i]
  rintro (⟨rfl, rfl⟩ | ⟨rfl, rfl⟩) <;> exact hab rfl

theorem updSym_range {M : ℕ → ℕ → ℚ}
    (h : ∀ i j, M i j = 0 ∨ ∃ x, 0 ≤ x ∧ x < 1 ∧ M i j = noisy x)
    (a b : ℕ) {x : ℚ} (hx0 : 0 ≤ x) (hx1 : x < 1) :
    ∀ i j, updSym M a b (noisy x) i j = 0 ∨
      ∃ y, 0 ≤ y ∧ y < 1 ∧ updSym M a b (noisy x) i j = noisy y := by
  intro i j
  unfold updSym
  by_cases hc : (i = a ∧ j = b) ∨ (i = b ∧ j = a)
  · rw [if_pos hc]; exact Or.inr ⟨x, hx0, hx1, rfl⟩
  · rw [if_neg hc]; exact h i j

/-- Any state predicate preserved by every in-range cell step holds of the
final `make_matrix` fold state. -/
theorem mmFold_preserves {tw : Bool} {rows cols : ℕ} {g : ℕ → ℚ}
    (P : ((ℕ → ℕ → ℚ) × ℕ) → Prop) (h0 : P (fun _ _ => (0 : ℚ), 0))
    (hstep : ∀ s r c, r < rows → c < cols → P s → P (cellStep tw rows cols g s r c)) :
    P (mmFold tw rows cols g) := by
  refine foldl_preserves _ _ _ h0 ?_
  intro s r hr hs
  refine foldl_preserves _ _ _ hs ?_
  intro s' c hc hs'
  exact hstep s' r c (List.mem_range.mp hr) (List.mem_range.mp hc) hs'

/-- A state predicate preserved by every single assignment at the cell's
targets is preserved by the whole cell step. -/
theorem cellStep_preserves {tw : Bool} {rows cols r c : ℕ} {g : ℕ → ℚ}
    (P : ((ℕ → ℕ → ℚ) × ℕ) → Prop) {s : (ℕ → ℕ → ℚ) × ℕ} (hs : P s)
    (hstep : ∀ s' ab, ab ∈ cellTargets tw rows cols r c → P s' → P (assign g s' ab)) :
    P (cellStep tw rows cols g s r c) :=
  foldl_preserves _ _ _ hs hstep

theorem cell_index_lt {rows cols r c : ℕ} (hr : r < rows) (hc : c < cols) :
    r * cols + c < rows * cols := by
  calc r * cols + c < r * cols + cols := by omega
    _ = (r + 1) * cols := by ring
    _ ≤ rows * cols := Nat.mul_le_mul_right cols hr

/-- Every assignment target of an in-range cell lies inside the
`(rows*cols) × (rows*cols)` square. -/
theorem cellTargets_lt {tw : Bool} {rows cols r c : ℕ} (hr : r < rows) (hc : c < cols) :
    ∀ ab ∈ cellTargets tw rows cols r c, ab.1 < rows * cols ∧ ab.2 < rows * cols := by
  have hi : r * cols + c < rows * cols := cell_index_lt hr hc
  have hii : c = 0 → r * cols + c + cols - 1 < rows * cols := by
    intro h0
    have : (r + 1) * cols ≤ rows * cols := Nat.mul_le_mul_right cols hr
    have : r * cols + cols ≤ rows * cols := by linarith [this, (by ring : (r + 1) * cols = r * cols + cols)]
    omega
  intro ab hab
  simp only [cellTargets, List.mem_append] at hab
  rcases hab with ((h | h) | h) | h <;> split_ifs at h <;>
    simp only [List.mem_singleton, List.not_mem_nil] at h <;> subst h <;>
    constructor <;> simp only [] <;> omega

/-- Under the C9 hypotheses (at least two columns and an even total number of
grid points) no assignment of an in-range cell targets a diagonal entry. -/
theorem cellTargets_ne {tw : Bool} {rows cols r c : ℕ} (hr : r < rows) (hc : c < cols)
    (h2 : 2 ≤ cols) (he : Even (rows * cols)) :
    ∀ ab ∈ cellTargets tw rows cols r c, ab.1 ≠ ab.2 := by
  have hi : r * cols + c < rows * cols := cell_index_lt hr hc
  obtain ⟨k, hk⟩ := he
  intro ab hab
  simp only [cellTargets, List.mem_append] at hab
  rcases hab with ((h | h) | h) | h
  · rcases (by split_ifs at h <;> simp_all :
      0 < c ∧ ab = (r * cols + c - 1, r * cols + c)) with ⟨hcpos, rfl⟩
    simp only [ne_eq, Prod.fst, Prod.snd]
    omega
  · rcases (by split_ifs at h <;> simp_all :
      0 < r ∧ ab = (r * cols + c - cols, r * cols + c)) with ⟨hrpos, rfl⟩
    have : cols ≤ r * cols := by
      calc cols = 1 * cols := (one_mul cols).symm
        _ ≤ r * cols := Nat.mul_le_mul_right cols hrpos
    simp only [ne_eq, Prod.fst, Prod.snd]
    omega
  · rcases (by split_ifs at h <;> simp_all :
      c = 0 ∧ ab = ((if tw then rows * cols - (r * cols + c) - 1 else r * cols + c + cols - 1),
        r * cols + c)) with ⟨hc0, rfl⟩
    rcases tw with _ | _ <;> simp only [ne_eq, Prod.fst, Prod.snd] <;> norm_num <;> omega
  · rcases (by split_ifs at h <;> simp_all :
      r = 0 ∧ ab = (rows * cols - (r * cols + c) - 1, r * cols + c)) with ⟨hr0, rfl⟩
    simp only [ne_eq, Prod.fst, Prod.snd]
    omega

/-- C8 invariant: symmetry together with support inside the square. -/
theorem mmFold_symm (tw : Bool) (rows cols : ℕ) (g : ℕ → ℚ) :
    (∀ i j, (mmFold tw rows cols g).1 i j = (mmFold tw rows cols g).1 j i) ∧
    (∀ i j, rows * cols ≤ i ∨ rows * cols ≤ j → (mmFold tw rows cols g).1 i j = 0) := by
  refine mmFold_preserves (fun s =>
    (∀ i j, s.1 i j = s.1 j i) ∧
    (∀ i j, rows * cols ≤ i ∨ rows * cols ≤ j → s.1 i j = 0)) ⟨fun _ _ => rfl, fun _ _ _ => rfl⟩ ?_
  intro s r c hr hc hs
  refine cellStep_preserves (fun s =>
    (∀ i j, s.1 i j = s.1 j i) ∧
    (∀ i j, rows * cols ≤ i ∨ rows * cols ≤ j → s.1 i j = 0)) hs ?_
  intro s' ab hab hs'
  obtain ⟨hlt1, hlt2⟩ := cellTargets_lt hr hc ab hab
  exact ⟨updSym_symm hs'.1 _ _ _, updSym_supp hs'.2 hlt1 hlt2 _⟩

/-- C9 invariant: the diagonal stays zero. -/
theorem mmFold_diag (tw : Bool) (rows cols : ℕ) (g : ℕ → ℚ)
    (h2 : 2 ≤ cols) (he : Even (rows * cols)) :
    ∀ i, (mmFold tw rows cols g).1 i i = 0 := by
  refine mmFold_preserves (fun s => ∀ i, s.1 i i = 0) (fun _ => rfl) ?_
  intro s r c hr hc hs
  refine cellStep_preserves (fun s => ∀ i, s.1 i i = 0) hs ?_
  intro s' ab hab hs'
  exact updSym_diag hs' (cellTargets_ne hr hc h2 he ab hab) _

/-- C10 invariant: every entry is zero or `noisy x` for some draw `x ∈ [0, 1)`. -/
theorem mmFold_range (tw : Bool) (rows cols : ℕ) (g : ℕ → ℚ)
    (hg : ∀ k, 0 ≤ g k ∧ g k < 1) :
    ∀ i j, (mmFold tw rows cols g).1 i j = 0 ∨
      ∃ x, 0 ≤ x ∧ x < 1 ∧ (mmFold tw rows cols g).1 i j = noisy x := by
  refine mmFold_preserves (fun s => ∀ i j, s.1 i j = 0 ∨
    ∃ x, 0 ≤ x ∧ x < 1 ∧ s.1 i j = noisy x) (fun _ _ => Or.inl rfl) ?_
  intro s r c hr hc hs
  refine cellStep_preserves (fun s => ∀ i j, s.1 i j = 0 ∨
    ∃ x, 0 ≤ x ∧ x < 1 ∧ s.1 i j = noisy x) hs ?_
  intro s' ab hab hs'
  exact updSym_range hs' ab.1 ab.2 (hg s'.2).1 (hg s'.2).2

theorem noisy_bounds {x : ℚ} (h0 : 0 ≤ x) (h1 : x < 1) :
    37 / 40 ≤ noisy x ∧ noisy x < 43 / 40 := by
  unfold noisy
  constructor <;> linarith

/-- C8: for all `rows ≥ 1` and `cols ≥ 1`, and for every stream of random
draws, the matrix returned by either variant of `make_matrix` is supported on
the `(rows*cols) × (rows*cols)` square and is symmetric at every index pair. -/
theorem make_matrix_symm (tw : Bool) (rows cols : ℕ) (g : ℕ → ℚ)
    (hrows : 1 ≤ rows) (hcols : 1 ≤ cols) :
    (∀ i j, make_matrix tw rows cols g i j = make_matrix tw rows cols g j i) ∧
    (∀ i j, rows * cols ≤ i ∨ rows * cols ≤ j → make_matrix tw rows cols g i j = 0) :=
  mmFold_symm tw rows cols g

theorem make_matrix_symm_witness :
    (1 ≤ 1 ∧ 1 ≤ 1) ∧
    ((∀ i j, make_matrix true 1 1 (fun _ => 0) i j = make_matrix true 1 1 (fun _ => 0) j i) ∧
     (∀ i j, 1 * 1 ≤ i ∨ 1 * 1 ≤ j → make_matrix true 1 1 (fun _ => 0) i j = 0)) :=
  ⟨⟨le_refl 1, le_refl 1⟩, make_matrix_symm true 1 1 (fun _ => 0) (le_refl 1) (le_refl 1)⟩

/-- C9: whenever `cols ≥ 2` and `rows * cols` is even (in particular for the
notebook's `rows = cols = 20`), every diagonal entry of the matrix returned by
either variant of `make_matrix` is zero: no assignment ever targets `(i, i)`. -/
theorem make_matrix_diag (tw : Bool) (rows cols : ℕ) (g : ℕ → ℚ)
    (h2 : 2 ≤ cols) (he : Even (rows * cols)) :
    ∀ i, make_matrix tw rows cols g i i = 0 :=
  mmFold_diag tw rows cols g h2 he

theorem make_matrix_diag_witness :
    (2 ≤ 20 ∧ Even (20 * 20)) ∧
    (∀ i, make_matrix true 20 20 (fun _ => 0) i i = 0) :=
  ⟨⟨by norm_num, by decide⟩, make_matrix_diag true 20 20 (fun _ => 0) (by norm_num) (by decide)⟩

/-- C10: if every draw of the random stream lies in `[0, 1)`, then for all
`rows ≥ 1`, `cols ≥ 1`, every entry of the matrix returned by either variant of
`make_matrix` is either `0` or of the form `1 + 0.15 * (x - 0.5)` with
`x ∈ [0, 1)`, hence lies in `[0.925, 1.075)`; in particular every entry is
non-negative. -/
theorem make_matrix_entry_range (tw : Bool) (rows cols : ℕ) (g : ℕ → ℚ)
    (hrows : 1 ≤ rows) (hcols : 1 ≤ cols) (hg : ∀ k, 0 ≤ g k ∧ g k < 1) :
    ∀ i j,
      (make_matrix tw rows cols g i j = 0 ∨
        ∃ x, 0 ≤ x ∧ x < 1 ∧ make_matrix tw rows cols g i j = noisy x) ∧
      (make_matrix tw rows cols g i j = 0 ∨
        (37 / 40 ≤ make_matrix tw rows cols g i j ∧
          make_matrix tw rows cols g i j < 43 / 40)) ∧
      0 ≤ make_matrix tw rows cols g i j := by
  intro i j
  have h := mmFold_range tw rows cols g hg i j
  refine ⟨h, ?_, ?_⟩
  · rcases h with h | ⟨x, hx0, hx1, hx⟩
    · exact Or.inl h
    · exact Or.inr (by rw [make_matrix, hx]; exact noisy_bounds hx0 hx1)
  · rcases h with h | ⟨x, hx0, hx1, hx⟩
    · rw [make_matrix, h]
    · rw [make_matrix, hx]
      linarith [(noisy_bounds hx0 hx1).1]

theorem make_matrix_entry_range_witness :
    ((1 : ℕ) ≤ 1 ∧ (1 : ℕ) ≤ 1 ∧ (∀ k : ℕ, (0 : ℚ) ≤ 0 ∧ (0 : ℚ) < 1)) ∧
    (∀ i j,
      (make_matrix false 1 1 (fun _ => 0) i j = 0 ∨
        ∃ x, 0 ≤ x ∧ x < 1 ∧ make_matrix false 1 1 (fun _ => 0) i j = noisy x) ∧
      (make_matrix false 1 1 (fun _ => 0) i j = 0 ∨
        (37 / 40 ≤ make_matrix false 1 1 (fun _ => 0) i j ∧
          make_matrix false 1 1 (fun _ => 0) i j < 43 / 40)) ∧
      0 ≤ make_matrix false 1 1 (fun _ => 0) i j) :=
  ⟨⟨le_refl 1, le_refl 1, fun _ => ⟨le_refl 0, by norm_num⟩⟩,
    make_matrix_entry_range false 1 1 (fun _ => 0) (le_refl 1) (le_refl 1)
      (fun _ => ⟨le_refl 0, by norm_num⟩)⟩

section Engine

variable {α : Type} [LinearOrder α]

/-- Modelled from the spec: the Vietoris–Rips engine is absent from the
repository excerpt (only invoked by the notebook), so distances are abstract
elements of a linear order, extended with `⊤` for entries "marked as
unreachable/infinite".  The filtration value of a simplex is the maximum
pairwise distance among its vertices (§3, "Simplex"); the empty set is given
the junk value `⊤`, which every in-filtration simplex excludes. -/
def fval {n : ℕ} (D : Fin n → Fin n → WithTop α) (s : Finset (Fin n)) : WithTop α :=
  if h : s.Nonempty then (s ×ˢ s).sup' (h.product h) (fun p => D p.1 p.2) else ⊤

/-- Modelled from the spec (§4.2): a simplex enters the filtration when its
dimension is at most the maximum requested homology dimension plus one (card at
most `k + 2`), its filtration value does not exceed the edge-length threshold,
and it is finite — an unreachable (infinite) pair never becomes connected. -/
def inFilt {n : ℕ} (D : Fin n → Fin n → WithTop α) (t : WithTop α) (k : ℕ)
    (s : Finset (Fin n)) : Prop :=
  s.card ≤ k + 2 ∧ fval D s ≤ t ∧ fval D s ≠ ⊤

instance inFiltDec {n : ℕ} (D : Fin n → Fin n → WithTop α) (t : WithTop α) (k : ℕ) :
    DecidablePred (inFilt D t k) := fun s =>
  inferInstanceAs (Decidable (s.card ≤ k + 2 ∧ fval D s ≤ t ∧ fval D s ≠ ⊤))

/-- All candidate vertex sets: the subsets of the vertex set, enumerated as the
sublists of the canonical vertex list (every finite set of vertices occurs). -/
def allSimplices (n : ℕ) : List (Finset (Fin n)) :=
  (List.finRange n).sublists.map List.toFinset

/-- The simplices of the Vietoris–Rips complex (up to dimension `k + 1`),
duplicate-free, before sorting. -/
def vrSimplices (n : ℕ) (D : Fin n → Fin n → WithTop α) (t : WithTop α) (k : ℕ) :
    List (Finset (Fin n)) :=
  ((allSimplices n).filter (fun s => decide (inFilt D t k s))).dedup

/-- The vertex list of a simplex, ascending (the canonical vertex enumeration
restricted to the simplex). -/
def vlist {n : ℕ} (s : Finset (Fin n)) : List ℕ :=
  ((List.finRange n).filter (fun a => decide (a ∈ s))).map Fin.val

/-- Modelled from the spec (§4.2): the sorting relation of the filtration —
by filtration value, then dimension ascending, with the deterministic
lexicographic tie-break on the (ascending) vertex lists. -/
def sRel {n : ℕ} (D : Fin n → Fin n → WithTop α) (s r : Finset (Fin n)) : Prop :=
  fval D s < fval D r ∨
    (fval D s = fval D r ∧
      (s.card < r.card ∨ (s.card = r.card ∧ vlist s ≤ vlist r)))

instance sRelDec {n : ℕ} (D : Fin n → Fin n → WithTop α) : DecidableRel (sRel D) :=
  fun s r => inferInstanceAs (Decidable (fval D s < fval D r ∨
    (fval D s = fval D r ∧
      (s.card < r.card ∨ (s.card = r.card ∧ vlist s ≤ vlist r)))))

theorem mem_vlist {n : ℕ} {s : Finset (Fin n)} {a : Fin n} :
    a ∈ s ↔ (a : ℕ) ∈ vlist s := by
  unfold vlist
  rw [List.mem_map]
  constructor
  · intro ha
    exact ⟨a, by simp [List.mem_filter, ha], rfl⟩
  · rintro ⟨b, hb, hba⟩
    rw [List.mem_filter] at hb
    have : b = a := Fin.val_injective hba
    subst this
    simpa using hb.2

theorem vlist_inj {n : ℕ} {s r : Finset (Fin n)} (h : vlist s = vlist r) : s = r := by
  ext a
  rw [mem_vlist, h, ← mem_vlist]

instance sRelTrans {n : ℕ} (D : Fin n → Fin n → WithTop α) :
    IsTrans (Finset (Fin n)) (sRel D) := by
  constructor
  intro a b c hab hbc
  rcases hab with h | ⟨he, h⟩
  · rcases hbc with h' | ⟨he', h'⟩
    · exact Or.inl (h.trans h')
    · exact Or.inl (he' ▸ h)
  · rcases hbc with h' | ⟨he', h'⟩
    · exact Or.inl (he ▸ h')
    · refine Or.inr ⟨he.trans he', ?_⟩
      rcases h with h | ⟨hc, h⟩
      · rcases h' with h' | ⟨hc', h'⟩
        · exact Or.inl (h.trans h')
        · exact Or.inl (hc' ▸ h)
      · rcases h' with h' | ⟨hc', h'⟩
        · exact Or.inl (hc ▸ h')
        · exact Or.inr ⟨hc.trans hc', le_trans h h'⟩

instance sRelAntisymm {n : ℕ} (D : Fin n → Fin n → WithTop α) :
    IsAntisymm (Finset (Fin n)) (sRel D) := by
  constructor
  intro a b hab hba
  rcases hab with h | ⟨he, h⟩
  · rcases hba with h' | ⟨he', h'⟩
    · exact absurd (h.trans h') (lt_irrefl _)
    · exact absurd h (he' ▸ lt_irrefl _)
  · rcases hba with h' | ⟨he', h'⟩
    · exact absurd h' (he ▸ lt_irrefl _)
    · rcases h with h | ⟨hc, h⟩
      · rcases h' with h' | ⟨hc', h'⟩
        · exact absurd (h.trans h') (lt_irrefl _)
        · exact absurd h (hc' ▸ lt_irrefl _)
      · rcases h' with h' | ⟨hc', h'⟩
        · exact absurd h' (hc ▸ lt_irrefl _)
        · exact vlist_inj (le_antisymm h h')

instance sRelTotal {n : ℕ} (D : Fin n → Fin n → WithTop α) :
    IsTotal (Finset (Fin n)) (sRel D) := by
  constructor
  intro a b
  rcases lt_trichotomy (fval D a) (fval D b) with h | h | h
  · exact Or.inl (Or.inl h)
  · rcases lt_trichotomy a.card b.card with hc | hc | hc
    · exact Or.inl (Or.inr ⟨h, Or.inl hc⟩)
    · rcases le_total (vlist a) (vlist b) with hv | hv
      · exact Or.inl (Or.inr ⟨h, Or.inr ⟨hc, hv⟩⟩)
      · exact Or.inr (Or.inr ⟨h.symm, Or.inr ⟨hc.symm, hv⟩⟩)
    · exact Or.inr (Or.inr ⟨h.symm, Or.inl hc⟩)
  · exact Or.inr (Or.inl h)

/-- Modelled from the spec (§4.2): the ordered filtration — all simplices of
the complex sorted by (filtration value, dimension, lexicographic vertex
order). -/
def vrFiltration (n : ℕ) (D : Fin n → Fin n → WithTop α) (t : WithTop α) (k : ℕ) :
    List (Finset (Fin n)) :=
  List.insertionSort (sRel D) (vrSimplices n D t k)

theorem vrFiltration_sorted (n : ℕ) (D : Fin n → Fin n → WithTop α) (t : WithTop α)
    (k : ℕ) : (vrFiltration n D t k).Sorted (sRel D) :=
  List.sorted_insertionSort (sRel D) (vrSimplices n D t k)

theorem vrFiltration_nodup (n : ℕ) (D : Fin n → Fin n → WithTop α) (t : WithTop α)
    (k : ℕ) : (vrFiltration n D t k).Nodup :=
  (List.perm_insertionSort (sRel D) (vrSimplices n D t k)).nodup_iff.mpr
    (List.nodup_dedup _)

end Engine

section Reduction

variable {α : Type} [LinearOrder α]

/-- The boundary column of a simplex: the positions (indices into the ordered
filtration) of its codimension-1 faces, i.e. a mod-2 vector represented as the
finite set of its nonzero rows.  Vertices have an empty boundary. -/
def bcol {n : ℕ} (fil : List (Finset (Fin n))) (s : Finset (Fin n)) : Finset ℕ :=
  if 2 ≤ s.card then s.image (fun v => fil.indexOf (s.erase v)) else ∅

/-- Look up the stored reduced column owning pivot `l`, if any. -/
def lookupCol (st : List (ℕ × Finset ℕ)) (l : ℕ) : Option (Finset ℕ) :=
  (st.find? (fun e => e.1 == l)).map Prod.snd

/-- Modelled from the spec (§4.3): reduce one boundary column against the
previously-reduced columns using the "lowest one" pivot strategy — while the
column is nonzero and its lowest one (largest row index) is the pivot of a
stored column, add (mod 2, i.e. symmetric difference) that column.  `fuel`
bounds the iteration; any `fuel` larger than the largest row index suffices
because each addition strictly decreases the lowest one. -/
def redStep : ℕ → List (ℕ × Finset ℕ) → Finset ℕ → Finset ℕ
  | 0, _, c => c
  | fuel + 1, st, c =>
    if h : c.Nonempty then
      match lookupCol st (c.max' h) with
      | none => c
      | some c' => redStep fuel st (symmDiff c c')
    else c

/-- Modelled from the spec (§4.3): process the columns of the filtration in
order; a nonzero reduced column records its lowest one as a new pivot, pairing
the simplex at the pivot (birth) with the current simplex (death).  The state
is the list of stored (pivot, reduced column) entries, newest first, together
with the persistence pairs (birth position, death position) in discovery
order. -/
def redLoop {n : ℕ} (fuel : ℕ) (fil : List (Finset (Fin n))) :
    List (Finset (Fin n)) → ℕ → List (ℕ × Finset ℕ) × List (ℕ × ℕ) →
      List (ℕ × Finset ℕ) × List (ℕ × ℕ)
  | [], _, st => st
  | s :: rest, j, (stored, prs) =>
    let r := redStep fuel stored (bcol fil s)
    if h : r.Nonempty then
      redLoop fuel fil rest (j + 1) ((r.max' h, r) :: stored, prs ++ [(r.max' h, j)])
    else
      redLoop fuel fil rest (j + 1) (stored, prs)

/-- Run the standard reduction over the whole filtration. -/
def runRed {n : ℕ} (fil : List (Finset (Fin n))) :
    List (ℕ × Finset ℕ) × List (ℕ × ℕ) :=
  redLoop fil.length fil fil 0 ([], [])

/-- Homology dimension of the simplex at a position of the filtration. -/
def dimAt {n : ℕ} (fil : List (Finset (Fin n))) (j : ℕ) : ℕ :=
  (fil.getD j ∅).card - 1

/-- Filtration value of the simplex at a position of the filtration. -/
def fvalAt {n : ℕ} (D : Fin n → Fin n → WithTop α) (fil : List (Finset (Fin n)))
    (j : ℕ) : WithTop α :=
  fval D (fil.getD j ∅)

/-- Modelled from the spec (§4.4): assemble the persistence diagram — one
(birth, death, dimension) triple per persistence pair, and one
(birth, `⊤`, dimension) triple per unpaired (essential) simplex — restricted to
the requested homology dimensions. -/
def persDiagram (n : ℕ) (D : Fin n → Fin n → WithTop α) (t : WithTop α)
    (dims : Finset ℕ) : List (WithTop α × WithTop α × ℕ) :=
  let fil := vrFiltration n D t (dims.sup id)
  let res := runRed fil
  let fin := res.2.filterMap (fun p =>
    if dimAt fil p.1 ∈ dims then
      some (fvalAt D fil p.1, fvalAt D fil p.2, dimAt fil p.1)
    else none)
  let ess := (List.range fil.length).filterMap (fun j =>
    if j ∉ res.2.map Prod.fst ∧ j ∉ res.2.map Prod.snd ∧ dimAt fil j ∈ dims then
      some (fvalAt D fil j, ⊤, dimAt fil j)
    else none)
  fin ++ ess

/-- Modelled from the spec (§6): the engine configuration — a metric
identifier, the maximum edge length (possibly infinite), and the requested
homology dimensions. -/
structure VRConfig (α : Type) where
  metric : String
  max_edge_length : WithTop α
  homology_dimensions : Finset ℕ

/-- Modelled from the spec (§4.4, state machine): `fit` caches nothing beyond
the construction-time configuration — the estimator is returned unchanged. -/
def fit (cfg : VRConfig α) {n : ℕ} (X : List (Fin n → Fin n → WithTop α)) :
    VRConfig α :=
  cfg

/-- Modelled from the spec (§6): `fit_transform` on a batch of precomputed
distance matrices — one persistence diagram per input sample. -/
def fitTransform (cfg : VRConfig α) {n : ℕ}
    (X : List (Fin n → Fin n → WithTop α)) :
    List (List (WithTop α × WithTop α × ℕ)) :=
  X.map (fun D => persDiagram n D cfg.max_edge_length cfg.homology_dimensions)

end Reduction

section Builder

/-- The error raised by the Distance Matrix Builder on malformed input.
Modelled from the spec (§4.1, §7): `InvalidInputError`. -/
inductive DMError where
  | invalidInput
deriving DecidableEq

/-- Entry `(i, j)` of a raw (list-of-rows) matrix; out-of-range reads default
to the unreachable marker. -/
def entryAt (m : List (List (WithTop ℚ))) (i j : ℕ) : WithTop ℚ :=
  (m.getD i []).getD j ⊤

/-- The raw matrix is square: every row has as many entries as there are
rows. -/
def SquareShape (m : List (List (WithTop ℚ))) : Prop :=
  ∀ row ∈ m, row.length = m.length

/-- Two extended entries agree within tolerance `tol`: both are unreachable, or
both are finite and differ by at most `tol`. -/
def tolClose (tol : ℚ) (a b : WithTop ℚ) : Prop :=
  (a = ⊤ ↔ b = ⊤) ∧ |a.untop' 0 - b.untop' 0| ≤ tol

instance tolCloseDec (tol : ℚ) (a b : WithTop ℚ) : Decidable (tolClose tol a b) :=
  inferInstanceAs (Decidable (_ ∧ _))

/-- The raw matrix is symmetric within tolerance `tol`. -/
def SymmWithin (tol : ℚ) (m : List (List (WithTop ℚ))) : Prop :=
  ∀ i < m.length, ∀ j < m.length, tolClose tol (entryAt m i j) (entryAt m j i)

instance symmWithinDec (tol : ℚ) (m : List (List (WithTop ℚ))) :
    Decidable (SymmWithin tol m) :=
  inferInstanceAs (Decidable (∀ i < m.length, ∀ j < m.length,
    tolClose tol (entryAt m i j) (entryAt m j i)))

/-- No entry of the raw matrix is a negative (necessarily finite) value. -/
def NonnegEntries (m : List (List (WithTop ℚ))) : Prop :=
  ∀ i < m.length, ∀ j < m.length, ¬ entryAt m i j < (0 : ℚ)

instance nonnegEntriesDec (m : List (List (WithTop ℚ))) :
    Decidable (NonnegEntries m) :=
  inferInstanceAs (Decidable (∀ i < m.length, ∀ j < m.length,
    ¬ entryAt m i j < (0 : ℚ)))

instance squareShapeDec (m : List (List (WithTop ℚ))) : Decidable (SquareShape m) :=
  List.decidableBAll _ m

/-- Modelled from the spec (§4.1): the Distance Matrix Builder on a precomputed
matrix — validates the matrix and returns it unchanged, failing with
`InvalidInputError` on malformed input (non-square, asymmetric beyond the
tolerance, or containing negative finite values).  A pure function. -/
def buildDMat (tol : ℚ) (m : List (List (WithTop ℚ))) :
    Except DMError (List (List (WithTop ℚ))) :=
  if SquareShape m ∧ SymmWithin tol m ∧ NonnegEntries m then .ok m else .error .invalidInput

/-- C6: the Distance Matrix Builder fails with `InvalidInputError` exactly when
the matrix is non-square, asymmetric beyond the tolerance, or contains a
negative finite entry; otherwise it returns the validated matrix unchanged.
Being a Lean function, it is pure, and its only outcomes are the validated
matrix or the immediately-surfaced error (no retry). -/
theorem buildDMat_spec (tol : ℚ) (m : List (List (WithTop ℚ))) :
    (buildDMat tol m = .error .invalidInput ↔
      (¬ SquareShape m ∨ ¬ SymmWithin tol m ∨ ¬ NonnegEntries m)) ∧
    (buildDMat tol m = .ok m ∨ buildDMat tol m = .error .invalidInput) ∧
    buildDMat tol m = buildDMat tol m := by
  unfold buildDMat
  split_ifs with h
  · refine ⟨⟨fun he => absurd he (by simp), fun hb => ?_⟩, Or.inl rfl, rfl⟩
    rcases hb with hb | hb | hb <;> exact absurd (by tauto : _) hb
  · refine ⟨⟨fun _ => ?_, fun _ => rfl⟩, Or.inr rfl, rfl⟩
    by_contra hc
    push_neg at hc
    exact h ⟨hc.1, hc.2.1, hc.2.2⟩

/-- C2: the engine is a deterministic pure function of its input and
configuration — two runs of `fit_transform` on the same batch with the same
configuration give identical diagrams, and `fit` does not change the estimator
state (it is exactly the construction-time configuration). -/
theorem fitTransform_deterministic {α : Type} [LinearOrder α] (cfg : VRConfig α)
    {n : ℕ} (X Y : List (Fin n → Fin n → WithTop α)) :
    fitTransform cfg X = fitTransform cfg X ∧
    fit cfg Y = cfg ∧
    fitTransform (fit cfg Y) X = fitTransform cfg X :=
  ⟨rfl, rfl, rfl⟩

end Builder

section Monotonicity

variable {α : Type} [LinearOrder α]

/-- Modelled from the spec (§3): a valid distance matrix is symmetric, has zero
diagonal, and non-negative entries (with `⊤` marking unreachable pairs). -/
def ValidDM {n : ℕ} [Zero α] (D : Fin n → Fin n → WithTop α) : Prop :=
  (∀ u v, D u v = D v u) ∧ (∀ u, D u u = 0) ∧ (∀ u v, (0 : WithTop α) ≤ D u v)

/-- Filtration values are monotone under taking subsets of vertices. -/
theorem fval_mono {n : ℕ} (D : Fin n → Fin n → WithTop α) {f s : Finset (Fin n)}
    (hfs : f ⊆ s) (hf : f.Nonempty) : fval D f ≤ fval D s := by
  unfold fval
  rw [dif_pos hf, dif_pos (hf.mono hfs)]
  exact Finset.sup'_mono _ (Finset.product_subset_product hfs hfs) (hf.product hf)

/-- C1: for every valid distance matrix, every simplex of the filtration has a
filtration value (the maximum pairwise distance among its vertices) at least
that of each of its (nonempty) faces. -/
theorem filtration_face_monotone {n : ℕ} [Zero α] (D : Fin n → Fin n → WithTop α)
    (t : WithTop α) (k : ℕ) (hD : ValidDM D) :
    ∀ s ∈ vrFiltration n D t k, ∀ f, f ⊆ s → f.Nonempty → fval D f ≤ fval D s := by
  intro s _ f hfs hf
  exact fval_mono D hfs hf

theorem filtration_face_monotone_witness :
    ValidDM (fun _ _ => (0 : WithTop ℚ) : Fin 1 → Fin 1 → WithTop ℚ) ∧
    (∀ s ∈ vrFiltration 1 (fun _ _ => (0 : WithTop ℚ)) ⊤ 0, ∀ f, f ⊆ s → f.Nonempty →
      fval (fun _ _ => (0 : WithTop ℚ)) f ≤ fval (fun _ _ => (0 : WithTop ℚ)) s) := by
  have h : ValidDM (fun _ _ => (0 : WithTop ℚ) : Fin 1 → Fin 1 → WithTop ℚ) :=
    ⟨fun _ _ => rfl, fun _ => rfl, fun _ _ => le_refl _⟩
  exact ⟨h, filtration_face_monotone (fun _ _ => (0 : WithTop ℚ)) ⊤ 0 h⟩

/-- Every simplex of the filtration satisfies the admission predicate. -/
theorem mem_allSimplices {n : ℕ} (s : Finset (Fin n)) : s ∈ allSimplices n := by
  unfold allSimplices
  rw [List.mem_map]
  refine ⟨(List.finRange n).filter (fun a => decide (a ∈ s)), ?_, ?_⟩
  · rw [List.mem_sublists]
    exact List.filter_sublist _
  · ext a
    simp [List.mem_toFinset, List.mem_filter, List.mem_finRange]

theorem mem_vrFiltration_iff {n : ℕ} (D : Fin n → Fin n → WithTop α) (t : WithTop α)
    (k : ℕ) {s : Finset (Fin n)} :
    s ∈ vrFiltration n D t k ↔ inFilt D t k s := by
  unfold vrFiltration vrSimplices
  rw [(List.perm_insertionSort (sRel D) _).mem_iff, List.mem_dedup, List.mem_filter]
  simp [mem_allSimplices]

/-- A nonempty subset of an admitted simplex is admitted. -/
theorem inFilt_subset {n : ℕ} {D : Fin n → Fin n → WithTop α} {t : WithTop α}
    {k : ℕ} {f s : Finset (Fin n)} (hs : inFilt D t k s) (hfs : f ⊆ s)
    (hf : f.Nonempty) : inFilt D t k f := by
  obtain ⟨hc, hle, hne⟩ := hs
  have hm : fval D f ≤ fval D s := fval_mono D hfs hf
  exact ⟨le_trans (Finset.card_le_card hfs) hc, le_trans hm hle,
    fun he => hne (top_le_iff.mp (he ▸ hm))⟩

/-- A strict nonempty subset sorts strictly earlier: it relates by the sort
relation and is distinct. -/
theorem sRel_of_ssubset {n : ℕ} (D : Fin n → Fin n → WithTop α)
    {f s : Finset (Fin n)} (hfs : f ⊂ s) (hf : f.Nonempty) : sRel D f s := by
  have hm : fval D f ≤ fval D s := fval_mono D hfs.subset hf
  rcases lt_or_eq_of_le hm with h | h
  · exact Or.inl h
  · exact Or.inr ⟨h, Or.inl (Finset.card_lt_card hfs)⟩

/-- The index of a (nonempty, proper) face of a listed simplex is a valid,
strictly earlier position of the filtration. -/
theorem indexOf_face_lt {n : ℕ} (D : Fin n → Fin n → WithTop α) (t : WithTop α)
    (k : ℕ) {j : ℕ} (hj : j < (vrFiltration n D t k).length) {f : Finset (Fin n)}
    (hfs : f ⊂ (vrFiltration n D t k).get ⟨j, hj⟩) (hf : f.Nonempty) :
    ∃ hi : (vrFiltration n D t k).indexOf f < (vrFiltration n D t k).length,
      (vrFiltration n D t k).indexOf f < j ∧
      (vrFiltration n D t k).get ⟨(vrFiltration n D t k).indexOf f, hi⟩ = f := by
  have hsin : inFilt D t k ((vrFiltration n D t k).get ⟨j, hj⟩) :=
    (mem_vrFiltration_iff D t k).mp (List.get_mem _ _ hj)
  have hfin : inFilt D t k f := inFilt_subset hsin hfs.subset hf
  have hfmem : f ∈ vrFiltration n D t k := (mem_vrFiltration_iff D t k).mpr hfin
  have hidx : (vrFiltration n D t k).indexOf f < (vrFiltration n D t k).length :=
    List.indexOf_lt_length.mpr hfmem
  have hget : (vrFiltration n D t k).get ⟨(vrFiltration n D t k).indexOf f, hidx⟩ = f :=
    List.indexOf_get hidx
  refine ⟨hidx, ?_, hget⟩
  by_contra hij
  push_neg at hij
  have hne : f ≠ (vrFiltration n D t k).get ⟨j, hj⟩ :=
    (Finset.ssubset_iff_subset_ne.mp hfs).2
  rcases lt_or_eq_of_le hij with hlt | heq
  · have hrel : sRel D ((vrFiltration n D t k).get ⟨j, hj⟩)
        ((vrFiltration n D t k).get ⟨(vrFiltration n D t k).indexOf f, hidx⟩) :=
      (vrFiltration_sorted n D t k).rel_get_of_lt (Fin.mk_lt_mk.mpr hlt)
    rw [hget] at hrel
    exact hne (antisymm (sRel_of_ssubset D hfs hf) hrel)
  · apply hne
    rw [← hget]
    congr 1
    exact Fin.ext heq.symm

/-- C7: the filtration builder outputs a duplicate-free sequence sorted by
(filtration value, dimension ascending, lexicographic vertex order), and every
(nonempty, proper) face of a listed simplex appears at a strictly earlier
position. -/
theorem filtration_sorted_faces_first {n : ℕ} (D : Fin n → Fin n → WithTop α)
    (t : WithTop α) (k : ℕ) :
    (vrFiltration n D t k).Sorted (sRel D) ∧
    (vrFiltration n D t k).Nodup ∧
    (∀ j (hj : j < (vrFiltration n D t k).length) (f : Finset (Fin n)),
      f ⊂ (vrFiltration n D t k).get ⟨j, hj⟩ → f.Nonempty →
      ∃ i, ∃ hi : i < (vrFiltration n D t k).length,
        i < j ∧ (vrFiltration n D t k).get ⟨i, hi⟩ = f) := by
  refine ⟨vrFiltration_sorted n D t k, vrFiltration_nodup n D t k, ?_⟩
  intro j hj f hfs hf
  obtain ⟨hi, hlt, hget⟩ := indexOf_face_lt D t k hj hfs hf
  exact ⟨_, hi, hlt, hget⟩

end Monotonicity

section RedBounds

variable {α : Type} [LinearOrder α]

theorem lookupCol_mem {st : List (ℕ × Finset ℕ)} {l : ℕ} {c : Finset ℕ}
    (h : lookupCol st l = some c) : (l, c) ∈ st := by
  unfold lookupCol at h
  cases hfind : st.find? (fun e => e.1 == l) with
  | none => rw [hfind] at h; simp at h
  | some e =>
    rw [hfind] at h
    simp only [Option.map_some', Option.some.injEq] at h
    have hm := List.mem_of_find?_eq_some hfind
    have hp : e.1 = l := by simpa using List.find?_some hfind
    have : (l, c) = e := by
      rw [← hp, ← h]
    rw [this]
    exact hm

theorem redStep_lt {m : ℕ} : ∀ (fuel : ℕ) (st : List (ℕ × Finset ℕ)) (c : Finset ℕ),
    (∀ e ∈ st, ∀ x ∈ e.2, x < m) → (∀ x ∈ c, x < m) →
    ∀ x ∈ redStep fuel st c, x < m := by
  intro fuel
  induction fuel with
  | zero => intro st c _ hc; exact hc
  | succ fuel ih =>
    intro st c hst hc
    simp only [redStep]
    split_ifs with h
    · cases hl : lookupCol st (c.max' h) with
      | none => exact hc
      | some c' =>
        refine ih st _ hst ?_
        intro x hx
        rw [Finset.mem_symmDiff] at hx
        rcases hx with ⟨hx, _⟩ | ⟨hx, _⟩
        · exact hc x hx
        · exact hst _ (lookupCol_mem hl) x hx
    · exact hc

/-- Boundary columns of the filtration only mention strictly earlier
positions. -/
theorem bcol_lt {n : ℕ} (D : Fin n → Fin n → WithTop α) (t : WithTop α) (k : ℕ)
    {j : ℕ} (hj : j < (vrFiltration n D t k).length) :
    ∀ x ∈ bcol (vrFiltration n D t k) ((vrFiltration n D t k).get ⟨j, hj⟩), x < j := by
  intro x hx
  unfold bcol at hx
  split_ifs at hx with hcard
  · rw [Finset.mem_image] at hx
    obtain ⟨v, hv, rfl⟩ := hx
    have hss : ((vrFiltration n D t k).get ⟨j, hj⟩).erase v ⊂
        (vrFiltration n D t k).get ⟨j, hj⟩ := Finset.erase_ssubset hv
    have hne : (((vrFiltration n D t k).get ⟨j, hj⟩).erase v).Nonempty := by
      rw [← Finset.card_pos, Finset.card_erase_of_mem hv]
      omega
    obtain ⟨hi, hlt, _⟩ := indexOf_face_lt D t k hj hss hne
    exact hlt
  · simp at hx

theorem sRel_fval_le {n : ℕ} (D : Fin n → Fin n → WithTop α)
    {a b : Finset (Fin n)} (h : sRel D a b) : fval D a ≤ fval D b := by
  rcases h with h | ⟨h, _⟩
  · exact le_of_lt h
  · exact le_of_eq h

/-- All elements of all stored reduced columns are below a bound. -/
def StBound (m : ℕ) (st : List (ℕ × Finset ℕ)) : Prop :=
  ∀ e ∈ st, ∀ x ∈ e.2, x < m

/-- All pairs are (birth, death) with birth strictly before death, below a
bound. -/
def PrBound (m : ℕ) (prs : List (ℕ × ℕ)) : Prop :=
  ∀ p ∈ prs, p.1 < p.2 ∧ p.2 < m

theorem StBound_mono {m m' : ℕ} {st : List (ℕ × Finset ℕ)} (h : StBound m st)
    (hm : m ≤ m') : StBound m' st :=
  fun e he x hx => lt_of_lt_of_le (h e he x hx) hm

theorem PrBound_mono {m m' : ℕ} {prs : List (ℕ × ℕ)} (h : PrBound m prs)
    (hm : m ≤ m') : PrBound m' prs :=
  fun p hp => ⟨(h p hp).1, lt_of_lt_of_le (h p hp).2 hm⟩

theorem redLoop_bound {n : ℕ} (fuel : ℕ) (fil : List (Finset (Fin n))) :
    ∀ (rest : List (Finset (Fin n))) (j : ℕ) (stored : List (ℕ × Finset ℕ))
      (prs : List (ℕ × ℕ)),
      (∀ i (hi : i < rest.length), ∀ x ∈ bcol fil (rest.get ⟨i, hi⟩), x < j + i) →
      StBound j stored → PrBound j prs →
      StBound (j + rest.length) (redLoop fuel fil rest j (stored, prs)).1 ∧
      PrBound (j + rest.length) (redLoop fuel fil rest j (stored, prs)).2 := by
  intro rest
  induction rest with
  | nil =>
    intro j stored prs _ hst hpr
    exact ⟨hst, hpr⟩
  | cons s rest ih =>
    intro j stored prs hrest hst hpr
    simp only [redLoop]
    have hbc : ∀ x ∈ bcol fil s, x < j := by
      have h0 := hrest 0 (by simp)
      simpa using h0
    have hr : ∀ x ∈ redStep fuel stored (bcol fil s), x < j :=
      redStep_lt fuel stored _ hst hbc
    have hrest' : ∀ i (hi : i < rest.length),
        ∀ x ∈ bcol fil (rest.get ⟨i, hi⟩), x < (j + 1) + i := by
      intro i hi x hx
      have := hrest (i + 1) (by simpa using Nat.succ_lt_succ hi) x (by simpa using hx)
      omega
    have harith : (j + 1) + rest.length = j + (s :: rest).length := by
      simp [List.length_cons]
      omega
    by_cases hne : (redStep fuel stored (bcol fil s)).Nonempty
    · rw [dif_pos hne]
      have hst' : StBound (j + 1)
          (((redStep fuel stored (bcol fil s)).max' hne,
            redStep fuel stored (bcol fil s)) :: stored) := by
        intro e he x hx
        rcases List.mem_cons.mp he with rfl | he'
        · exact lt_of_lt_of_le (hr x hx) (Nat.le_succ j)
        · exact (StBound_mono hst (Nat.le_succ j)) e he' x hx
      have hpr' : PrBound (j + 1)
          (prs ++ [((redStep fuel stored (bcol fil s)).max' hne, j)]) := by
        intro p hp
        rcases List.mem_append.mp hp with hp' | hp'
        · exact (PrBound_mono hpr (Nat.le_succ j)) p hp'
        · rcases List.mem_singleton.mp hp' with rfl
          exact ⟨hr _ (Finset.max'_mem _ hne), Nat.lt_succ_self j⟩
      have := ih (j + 1) _ _ hrest' hst' hpr'
      rw [harith] at this
      exact this
    · rw [dif_neg hne]
      have := ih (j + 1) _ _ hrest' (StBound_mono hst (Nat.le_succ j)) (PrBound_mono hpr (Nat.le_succ j))
      rw [harith] at this
      exact this

/-- The pairs produced by the reduction of the filtration: births strictly
before deaths, all positions valid. -/
theorem runRed_bound {n : ℕ} (D : Fin n → Fin n → WithTop α) (t : WithTop α)
    (k : ℕ) : PrBound (vrFiltration n D t k).length
      (runRed (vrFiltration n D t k)).2 := by
  unfold runRed
  have h := redLoop_bound (vrFiltration n D t k).length (vrFiltration n D t k)
    (vrFiltration n D t k) 0 [] []
    (fun i hi x hx => by simpa using bcol_lt D t k hi x hx)
    (fun e he => absurd he (List.not_mem_nil e))
    (fun p hp => absurd hp (List.not_mem_nil p))
  simpa using h.2

end RedBounds

section SafetyInf

variable {α : Type} [LinearOrder α]

theorem getD_vrFiltration_inFilt {n : ℕ} (D : Fin n → Fin n → WithTop α)
    (t : WithTop α) (k : ℕ) {j : ℕ} (hj : j < (vrFiltration n D t k).length) :
    inFilt D t k ((vrFiltration n D t k).getD j ∅) := by
  rw [List.getD_eq_getElem _ _ hj]
  exact (mem_vrFiltration_iff D t k).mp (List.getElem_mem _)

theorem fvalAt_ne_top {n : ℕ} (D : Fin n → Fin n → WithTop α) (t : WithTop α)
    (k : ℕ) {j : ℕ} (hj : j < (vrFiltration n D t k).length) :
    fvalAt D (vrFiltration n D t k) j ≠ ⊤ :=
  (getD_vrFiltration_inFilt D t k hj).2.2

theorem fvalAt_mono {n : ℕ} (D : Fin n → Fin n → WithTop α) (t : WithTop α)
    (k : ℕ) {i j : ℕ} (hij : i < j) (hj : j < (vrFiltration n D t k).length) :
    fvalAt D (vrFiltration n D t k) i ≤ fvalAt D (vrFiltration n D t k) j := by
  have hi : i < (vrFiltration n D t k).length := lt_trans hij hj
  unfold fvalAt
  rw [List.getD_eq_getElem _ _ hi, List.getD_eq_getElem _ _ hj]
  have hrel : sRel D ((vrFiltration n D t k).get ⟨i, hi⟩)
      ((vrFiltration n D t k).get ⟨j, hj⟩) :=
    (vrFiltration_sorted n D t k).rel_get_of_lt (Fin.mk_lt_mk.mpr hij)
  simp only [List.get_eq_getElem] at hrel
  exact sRel_fval_le D hrel

set_option maxHeartbeats 1000000 in
/-- C5: if one off-diagonal entry of the distance matrix is marked unreachable
(`⊤`), then no simplex of the filtration — at any threshold — contains both of
its endpoints (the pair never becomes connected), and the assembled persistence
diagram is still well formed: every triple has a finite birth that does not
exceed its death. -/
theorem infinite_entry_safe {n : ℕ} (D : Fin n → Fin n → WithTop α) (t : WithTop α)
    (dims : Finset ℕ) (u v : Fin n) (huv : u ≠ v) (hD : D u v = ⊤) :
    (∀ s ∈ vrFiltration n D t (dims.sup id), ¬ (u ∈ s ∧ v ∈ s)) ∧
    (∀ tr ∈ persDiagram n D t dims, tr.1 ≠ ⊤ ∧ tr.1 ≤ tr.2.1) := by
  constructor
  · rintro s hs ⟨hu, hv⟩
    have hin := (mem_vrFiltration_iff D t (dims.sup id)).mp hs
    have hsne : s.Nonempty := ⟨u, hu⟩
    have hle : D u v ≤ fval D s := by
      unfold fval
      rw [dif_pos hsne]
      have hmem : ((u, v) : Fin n × Fin n) ∈ s ×ˢ s := Finset.mem_product.mpr ⟨hu, hv⟩
      exact Finset.le_sup' (fun p => D p.1 p.2) hmem
    rw [hD, top_le_iff] at hle
    exact hin.2.2 hle
  · intro tr htr
    simp only [persDiagram] at htr
    rcases List.mem_append.mp htr with htr' | htr'
    · rw [List.mem_filterMap] at htr'
      obtain ⟨p, hp, hsome⟩ := htr'
      split_ifs at hsome with hdim
      obtain rfl := Option.some.inj hsome
      have hb := runRed_bound D t (dims.sup id) p hp
      exact ⟨fvalAt_ne_top D t (dims.sup id) (lt_trans hb.1 hb.2),
        fvalAt_mono D t (dims.sup id) hb.1 hb.2⟩
    · rw [List.mem_filterMap] at htr'
      obtain ⟨j, hj, hsome⟩ := htr'
      rw [List.mem_range] at hj
      split_ifs at hsome with hcond
      obtain rfl := Option.some.inj hsome
      exact ⟨fvalAt_ne_top D t (dims.sup id) hj, le_top⟩

theorem infinite_entry_safe_witness :
    ((0 : Fin 2) ≠ 1 ∧
      (fun i j : Fin 2 => if i = j then (0 : WithTop ℚ) else ⊤) 0 1 = ⊤) ∧
    ((∀ s ∈ vrFiltration 2 (fun i j : Fin 2 => if i = j then (0 : WithTop ℚ) else ⊤) ⊤
        (({0} : Finset ℕ).sup id), ¬ ((0 : Fin 2) ∈ s ∧ (1 : Fin 2) ∈ s)) ∧
      (∀ tr ∈ persDiagram 2 (fun i j : Fin 2 => if i = j then (0 : WithTop ℚ) else ⊤) ⊤
        ({0} : Finset ℕ), tr.1 ≠ ⊤ ∧ tr.1 ≤ tr.2.1)) :=
  ⟨⟨by decide, by decide⟩,
    infinite_entry_safe (fun i j : Fin 2 => if i = j then (0 : WithTop ℚ) else ⊤) ⊤
      ({0} : Finset ℕ) 0 1 (by decide) (by decide)⟩

end SafetyInf

section UnitSquare

/-- `2` is not a perfect square, so `ℤ√2` is a linearly ordered ring whose
order is the one inherited from the reals. -/
instance nonsquare2 : Zsqrtd.Nonsquare 2 where
  ns' := by
    intro n h
    rcases Nat.lt_or_ge n 2 with h2 | h2
    · interval_cases n <;> omega
    · nlinarith

/-- The ring `ℤ[√2]`, an exact computable representation of the distances
arising from the unit square (`0`, `1`, `2` and `√2`). -/
abbrev R2 := Zsqrtd ((2 : ℕ) : ℤ)

/-- The distance matrix of the four vertices of the unit square, in reading
order `(0,0), (1,0), (0,1), (1,1)`: opposite corners (index pairs summing
to 3) are at distance `√2`, adjacent corners at distance `1`. -/
def squareDM : Fin 4 → Fin 4 → WithTop R2 := fun i j =>
  if i = j then 0 else if i.val + j.val = 3 then (⟨0, 1⟩ : R2) else 1

/-- The four vertices of the unit square in the Euclidean plane. -/
def pts4 : Fin 4 → ℝ × ℝ := fun i =>
  (if i.val % 2 = 1 then 1 else 0, if 2 ≤ i.val then 1 else 0)

/-- The entry `(i, j)` of `squareDM`, evaluated in `ℝ` (`√2` read as the real
square root of two), is the Euclidean distance between the corresponding
vertices of the unit square. -/
def reprEuclid (i j : Fin 4) : Prop :=
  WithTop.map (fun z : R2 => (z.re : ℝ) + (z.im : ℝ) * Real.sqrt 2) (squareDM i j) =
    ((Real.sqrt (((pts4 i).1 - (pts4 j).1) ^ 2 + ((pts4 i).2 - (pts4 j).2) ^ 2) : ℝ) :
      WithTop ℝ)

/-- `squareDM` is exactly the Euclidean distance matrix of the unit square's
vertices. -/
theorem squareDM_euclidean : ∀ i j, reprEuclid i j := by
  intro i j
  fin_cases i <;> fin_cases j <;>
    · simp only [reprEuclid, squareDM, pts4, Fin.ext_iff, WithTop.map, Option.map]
      norm_num [Real.sqrt_one, Real.sqrt_zero]
      try rfl

set_option maxRecDepth 40000 in
/-- C4: for the four vertices of the unit square under the Euclidean metric
(represented exactly in `ℤ[√2]`, whose evaluation in `ℝ` reproduces the
Euclidean distance matrix), with `max_edge_length = 2` and homology dimensions
`{0, 1}`, the engine produces exactly one dimension-1 generator — one
off-diagonal dimension-1 point of the diagram — whose birth is the side
length `1` and whose death is the diagonal length `√2`. -/
theorem unit_square_one_loop :
    (∀ i j, reprEuclid i j) ∧
    (((1 : R2).re : ℝ) + ((1 : R2).im : ℝ) * Real.sqrt 2 = 1) ∧
    ((((⟨0, 1⟩ : R2).re : ℝ) + (((⟨0, 1⟩ : R2)).im : ℝ) * Real.sqrt 2) = Real.sqrt 2) ∧
    ((persDiagram 4 squareDM ((2 : R2) : WithTop R2) ({0, 1} : Finset ℕ)).filter
        (fun tr => decide (tr.2.2 = 1 ∧ tr.1 ≠ tr.2.1))) =
      [(((1 : R2) : WithTop R2), ((⟨0, 1⟩ : R2) : WithTop R2), 1)] :=
  ⟨squareDM_euclidean, by norm_num, by norm_num, by decide⟩

end UnitSquare

section RootChase

/-- Chase a parent map for at most `k` steps. -/
def rootStep (f : ℕ → Option ℕ) : ℕ → ℕ → ℕ
  | 0, x => x
  | k + 1, x =>
    match f x with
    | none => x
    | some y => rootStep f k y

/-- A parent map is decreasing when every parent is strictly smaller. -/
def Decreasing (f : ℕ → Option ℕ) : Prop := ∀ x y, f x = some y → y < x

theorem rootStep_none {f : ℕ → Option ℕ} {x : ℕ} (h : f x = none) :
    ∀ k, rootStep f k x = x := by
  intro k
  cases k with
  | zero => rfl
  | succ k => simp [rootStep, h]

theorem rootStep_some {f : ℕ → Option ℕ} {x y : ℕ} (h : f x = some y) (k : ℕ) :
    rootStep f (k + 1) x = rootStep f k y := by
  simp [rootStep, h]

theorem rootStep_stable {f : ℕ → Option ℕ} (hf : Decreasing f) :
    ∀ x k, x < k → rootStep f k x = rootStep f (x + 1) x := by
  intro x
  induction x using Nat.strong_induction_on with
  | _ x ih =>
    intro k hk
    cases hfx : f x with
    | none => rw [rootStep_none hfx, rootStep_none hfx]
    | some y =>
      have hy : y < x := hf x y hfx
      obtain ⟨k', rfl⟩ : ∃ k', k = k' + 1 := ⟨k - 1, by omega⟩
      rw [rootStep_some hfx, rootStep_some hfx]
      rw [ih y hy k' (by omega), ih y hy x (by omega)]

/-- The root of `x` under a decreasing parent map. -/
def rootOf (f : ℕ → Option ℕ) (x : ℕ) : ℕ := rootStep f (x + 1) x

theorem rootOf_eq_self {f : ℕ → Option ℕ} {x : ℕ} (h : f x = none) :
    rootOf f x = x :=
  rootStep_none h _

theorem rootOf_parent {f : ℕ → Option ℕ} (hf : Decreasing f) {x y : ℕ}
    (h : f x = some y) : rootOf f x = rootOf f y := by
  have hy : y < x := hf x y h
  unfold rootOf
  rw [rootStep_some h]
  exact rootStep_stable hf y x (by omega)

theorem rootOf_le {f : ℕ → Option ℕ} (hf : Decreasing f) :
    ∀ x, rootOf f x ≤ x := by
  intro x
  induction x using Nat.strong_induction_on with
  | _ x ih =>
    cases hfx : f x with
    | none => rw [rootOf_eq_self hfx]
    | some y =>
      have hy : y < x := hf x y hfx
      rw [rootOf_parent hf hfx]
      exact le_trans (ih y hy) (le_of_lt hy)

theorem rootOf_isRoot {f : ℕ → Option ℕ} (hf : Decreasing f) :
    ∀ x, f (rootOf f x) = none := by
  intro x
  induction x using Nat.strong_induction_on with
  | _ x ih =>
    cases hfx : f x with
    | none => rw [rootOf_eq_self hfx]; exact hfx
    | some y =>
      have hy : y < x := hf x y hfx
      rw [rootOf_parent hf hfx]
      exact ih y hy

theorem rootOf_idem {f : ℕ → Option ℕ} (hf : Decreasing f) (x : ℕ) :
    rootOf f (rootOf f x) = rootOf f x :=
  rootOf_eq_self (rootOf_isRoot hf x)

end RootChase

section RTGUnion

/-- Reachability through a relation extended by one (two-sided) edge `a — b`
decomposes into plain reachability or reachability through the new edge. -/
theorem rtg_union_edge {β : Type} (r : β → β → Prop) (a b u v : β) :
    Relation.ReflTransGen (fun x y => r x y ∨ (x = a ∧ y = b) ∨ (x = b ∧ y = a)) u v ↔
      (Relation.ReflTransGen r u v ∨
        (Relation.ReflTransGen r u a ∧ Relation.ReflTransGen r b v) ∨
        (Relation.ReflTransGen r u b ∧ Relation.ReflTransGen r a v)) := by
  constructor
  · intro h
    induction h with
    | refl => exact Or.inl Relation.ReflTransGen.refl
    | tail hab hbc ih =>
      rcases hbc with hr | ⟨rfl, rfl⟩ | ⟨rfl, rfl⟩
      · rcases ih with ih' | ⟨h1, h2⟩ | ⟨h1, h2⟩
        · exact Or.inl (ih'.tail hr)
        · exact Or.inr (Or.inl ⟨h1, h2.tail hr⟩)
        · exact Or.inr (Or.inr ⟨h1, h2.tail hr⟩)
      · rcases ih with ih' | ⟨h1, h2⟩ | ⟨h1, h2⟩
        · exact Or.inr (Or.inl ⟨ih', Relation.ReflTransGen.refl⟩)
        · exact Or.inr (Or.inl ⟨h1, Relation.ReflTransGen.refl⟩)
        · exact Or.inl h1
      · rcases ih with ih' | ⟨h1, h2⟩ | ⟨h1, h2⟩
        · exact Or.inr (Or.inr ⟨ih', Relation.ReflTransGen.refl⟩)
        · exact Or.inl h1
        · exact Or.inr (Or.inr ⟨h1, Relation.ReflTransGen.refl⟩)
  · intro h
    have hmono : ∀ x y : β, Relation.ReflTransGen r x y →
        Relation.ReflTransGen
          (fun x y => r x y ∨ (x = a ∧ y = b) ∨ (x = b ∧ y = a)) x y :=
      fun x y hxy => hxy.mono (fun p q hpq => Or.inl hpq)
    have hedge1 : Relation.ReflTransGen
        (fun x y => r x y ∨ (x = a ∧ y = b) ∨ (x = b ∧ y = a)) a b :=
      Relation.ReflTransGen.single (Or.inr (Or.inl ⟨rfl, rfl⟩))
    have hedge2 : Relation.ReflTransGen
        (fun x y => r x y ∨ (x = a ∧ y = b) ∨ (x = b ∧ y = a)) b a :=
      Relation.ReflTransGen.single (Or.inr (Or.inr ⟨rfl, rfl⟩))
    rcases h with h' | ⟨h1, h2⟩ | ⟨h1, h2⟩
    · exact hmono _ _ h'
    · exact ((hmono _ _ h1).trans hedge1).trans (hmono _ _ h2)
    · exact ((hmono _ _ h1).trans hedge2).trans (hmono _ _ h2)

/-- Reachability is invariant under pointwise equivalence of step relations. -/
theorem rtg_congr {β : Type} {r p : β → β → Prop} (h : ∀ x y, r x y ↔ p x y)
    {u v : β} : Relation.ReflTransGen r u v ↔ Relation.ReflTransGen p u v :=
  ⟨fun hr => hr.mono (fun x y hxy => (h x y).mp hxy),
   fun hp => hp.mono (fun x y hxy => (h x y).mpr hxy)⟩

end RTGUnion

section Dim0Setup

variable {α : Type} [LinearOrder α]

/-- Two vertices are adjacent at threshold `t`: distinct, and the edge between
them has a finite filtration value within the threshold. -/
def thrAdj {n : ℕ} (D : Fin n → Fin n → WithTop α) (t : WithTop α) (u v : Fin n) :
    Prop :=
  u ≠ v ∧ fval D {u, v} ≤ t ∧ fval D {u, v} ≠ ⊤

theorem thrAdj_symm {n : ℕ} {D : Fin n → Fin n → WithTop α} {t : WithTop α} :
    ∀ u v : Fin n, thrAdj D t u v → thrAdj D t v u := by
  intro u v ⟨h1, h2, h3⟩
  exact ⟨h1.symm, by rwa [Finset.pair_comm v u], by rwa [Finset.pair_comm v u]⟩

/-- Connectivity of vertices at threshold `t`. -/
def thrConn {n : ℕ} (D : Fin n → Fin n → WithTop α) (t : WithTop α) :
    Fin n → Fin n → Prop :=
  Relation.ReflTransGen (thrAdj D t)

/-- The vertex set modulo connectivity at threshold `t`. -/
def thrSetoid (n : ℕ) (D : Fin n → Fin n → WithTop α) (t : WithTop α) :
    Setoid (Fin n) :=
  ⟨thrConn D t,
    ⟨fun _ => Relation.ReflTransGen.refl,
     fun h => (Relation.ReflTransGen.symmetric (fun _ _ => thrAdj_symm _ _)) h,
     fun h1 h2 => h1.trans h2⟩⟩

/-- The number of connected components of the threshold graph. -/
noncomputable def nComponents (n : ℕ) (D : Fin n → Fin n → WithTop α) (t : WithTop α) : ℕ :=
  Nat.card (Quotient (thrSetoid n D t))

/-- A position of the filtration holding a vertex (a singleton simplex). -/
def PVf {n : ℕ} (fil : List (Finset (Fin n))) (x : ℕ) : Prop :=
  ∃ v : Fin n, ({v} : Finset (Fin n)) ∈ fil ∧ fil.indexOf ({v} : Finset (Fin n)) = x

/-- Adjacency witnessed by an edge among the first `j` columns of the
filtration. -/
def prefAdj {n : ℕ} (fil : List (Finset (Fin n))) (j : ℕ) (u v : Fin n) : Prop :=
  u ≠ v ∧ ∃ i, i < j ∧ ∃ hi : i < fil.length, fil.get ⟨i, hi⟩ = {u, v}

/-- Connectivity through edges among the first `j` columns. -/
def prefConn {n : ℕ} (fil : List (Finset (Fin n))) (j : ℕ) : Fin n → Fin n → Prop :=
  Relation.ReflTransGen (prefAdj fil j)

end Dim0Setup

section FilStructure

variable {α : Type} [LinearOrder α]

theorem fval_singleton {n : ℕ} (D : Fin n → Fin n → WithTop α) (v : Fin n) :
    fval D {v} = D v v := by
  unfold fval
  rw [dif_pos (Finset.singleton_nonempty v)]
  apply le_antisymm
  · apply Finset.sup'_le
    intro p hp
    rw [Finset.mem_product, Finset.mem_singleton, Finset.mem_singleton] at hp
    rw [hp.1, hp.2]
  · have hmem : ((v, v) : Fin n × Fin n) ∈ ({v} : Finset (Fin n)) ×ˢ ({v} : Finset (Fin n)) :=
      Finset.mem_product.mpr ⟨Finset.mem_singleton_self v, Finset.mem_singleton_self v⟩
    exact Finset.le_sup' (fun p => D p.1 p.2) hmem

/-- Under a zero diagonal and a non-negative threshold, every vertex enters the
filtration. -/
theorem vertex_mem_filtration {n : ℕ} [Zero α] (D : Fin n → Fin n → WithTop α)
    (t : WithTop α) (k : ℕ) (hdiag : ∀ v, D v v = 0)
    (ht : ((0 : α) : WithTop α) ≤ t) (v : Fin n) :
    ({v} : Finset (Fin n)) ∈ vrFiltration n D t k := by
  rw [mem_vrFiltration_iff]
  refine ⟨by simp, ?_, ?_⟩
  · rw [fval_singleton, hdiag]
    exact ht
  · rw [fval_singleton, hdiag]
    exact WithTop.coe_ne_top

/-- Every simplex of the filtration is nonempty. -/
theorem fil_card_pos {n : ℕ} (D : Fin n → Fin n → WithTop α) (t : WithTop α)
    (k : ℕ) {j : ℕ} (hj : j < (vrFiltration n D t k).length) :
    0 < ((vrFiltration n D t k).get ⟨j, hj⟩).card := by
  by_contra h
  have hemp : (vrFiltration n D t k).get ⟨j, hj⟩ = ∅ := by
    rw [← Finset.card_eq_zero]
    omega
  have hin := (mem_vrFiltration_iff D t k).mp (List.get_mem _ _ hj)
  rw [hemp] at hin
  apply hin.2.2
  unfold fval
  rw [dif_neg (by simp)]

/-- A position holds a vertex exactly when its simplex is a singleton. -/
theorem PVf_iff_card_one {n : ℕ} (D : Fin n → Fin n → WithTop α) (t : WithTop α)
    (k : ℕ) {j : ℕ} (hj : j < (vrFiltration n D t k).length) :
    PVf (vrFiltration n D t k) j ↔
      ((vrFiltration n D t k).get ⟨j, hj⟩).card = 1 := by
  constructor
  · rintro ⟨v, hmem, hidx⟩
    have hlt : (vrFiltration n D t k).indexOf ({v} : Finset (Fin n)) <
        (vrFiltration n D t k).length := List.indexOf_lt_length.mpr hmem
    have hget := List.indexOf_get hlt
    have : (vrFiltration n D t k).get ⟨j, hj⟩ = {v} := by
      rw [← hget]
      congr 1
      exact Fin.ext hidx.symm
    rw [this]
    exact Finset.card_singleton v
  · intro hcard
    obtain ⟨v, hv⟩ := Finset.card_eq_one.mp hcard
    refine ⟨v, ?_, ?_⟩
    · rw [← hv]
      exact List.get_mem _ _ hj
    · rw [← hv]
      exact List.get_indexOf (vrFiltration_nodup n D t k) _
end FilStructure

section BcolShape

variable {α : Type} [LinearOrder α]

theorem bcol_singleton {n : ℕ} (fil : List (Finset (Fin n))) (v : Fin n) :
    bcol fil {v} = ∅ := by
  unfold bcol
  rw [if_neg]
  rw [Finset.card_singleton]
  omega

theorem bcol_pair {n : ℕ} (fil : List (Finset (Fin n))) {u v : Fin n} (huv : u ≠ v) :
    bcol fil {u, v} =
      {fil.indexOf ({v} : Finset (Fin n)), fil.indexOf ({u} : Finset (Fin n))} := by
  unfold bcol
  rw [if_pos (by rw [Finset.card_pair huv])]
  have h1 : ({u, v} : Finset (Fin n)).erase u = {v} :=
    Finset.erase_insert (by simp [huv])
  have h2 : ({u, v} : Finset (Fin n)).erase v = {u} := by
    rw [Finset.pair_comm]
    exact Finset.erase_insert (by simp [Ne.symm huv])
  rw [Finset.image_insert, Finset.image_singleton, h1, h2]

/-- Boundary entries of a simplex of dimension at least two are never vertex
positions. -/
theorem bcol_high_not_PVf {n : ℕ} (D : Fin n → Fin n → WithTop α) (t : WithTop α)
    (k : ℕ) {j : ℕ} (hj : j < (vrFiltration n D t k).length)
    (hcard : 3 ≤ ((vrFiltration n D t k).get ⟨j, hj⟩).card) :
    ∀ x ∈ bcol (vrFiltration n D t k) ((vrFiltration n D t k).get ⟨j, hj⟩),
      ¬ PVf (vrFiltration n D t k) x := by
  intro x hx
  unfold bcol at hx
  split_ifs at hx with h2
  · rw [Finset.mem_image] at hx
    obtain ⟨w, hw, rfl⟩ := hx
    have hss : ((vrFiltration n D t k).get ⟨j, hj⟩).erase w ⊂
        (vrFiltration n D t k).get ⟨j, hj⟩ := Finset.erase_ssubset hw
    have hcard' : (((vrFiltration n D t k).get ⟨j, hj⟩).erase w).card =
        ((vrFiltration n D t k).get ⟨j, hj⟩).card - 1 :=
      Finset.card_erase_of_mem hw
    have hne : (((vrFiltration n D t k).get ⟨j, hj⟩).erase w).Nonempty := by
      rw [← Finset.card_pos, hcard']
      omega
    have hsin : inFilt D t k ((vrFiltration n D t k).get ⟨j, hj⟩) :=
      (mem_vrFiltration_iff D t k).mp (List.get_mem _ _ hj)
    have hfin : inFilt D t k (((vrFiltration n D t k).get ⟨j, hj⟩).erase w) :=
      inFilt_subset hsin hss.subset hne
    have hfmem := (mem_vrFiltration_iff D t k).mpr hfin
    have hlt : (vrFiltration n D t k).indexOf
        (((vrFiltration n D t k).get ⟨j, hj⟩).erase w) <
        (vrFiltration n D t k).length := List.indexOf_lt_length.mpr hfmem
    intro hpv
    have hone := (PVf_iff_card_one D t k hlt).mp hpv
    rw [List.indexOf_get hlt] at hone
    omega
  · simp at hx

end BcolShape

section ParMap

/-- The parent map read off the stored reduced columns: defined (and strictly
decreasing) exactly where the stored column owning the pivot has its other
entries below the pivot. -/
def parOf (st : List (ℕ × Finset ℕ)) (x : ℕ) : Option ℕ :=
  (lookupCol st x).bind (fun c =>
    if (c.erase x).sup id < x then some ((c.erase x).sup id) else none)

theorem parOf_decreasing (st : List (ℕ × Finset ℕ)) : Decreasing (parOf st) := by
  intro x y h
  unfold parOf at h
  cases hl : lookupCol st x with
  | none => rw [hl] at h; simp at h
  | some c =>
    rw [hl] at h
    simp only [Option.some_bind] at h
    split_ifs at h with hlt
    obtain rfl := Option.some.inj h
    exact hlt

theorem lookupCol_eq_none_iff {st : List (ℕ × Finset ℕ)} {l : ℕ} :
    lookupCol st l = none ↔ ∀ e ∈ st, e.1 ≠ l := by
  unfold lookupCol
  rw [Option.map_eq_none', List.find?_eq_none]
  simp

theorem parOf_none {st : List (ℕ × Finset ℕ)} {x : ℕ}
    (h : lookupCol st x = none) : parOf st x = none := by
  unfold parOf
  rw [h]
  rfl

theorem parOf_pair {st : List (ℕ × Finset ℕ)} {x a : ℕ} (hax : a < x)
    (h : lookupCol st x = some {a, x}) : parOf st x = some a := by
  unfold parOf
  rw [h]
  have he : ({a, x} : Finset ℕ).erase x = {a} := by
    rw [Finset.pair_comm]
    exact Finset.erase_insert (by simp; omega)
  simp only [Option.some_bind, he, Finset.sup_singleton, id]
  rw [if_pos hax]

end ParMap

section RedStepLemmas

theorem redStep_emptyc (fuel : ℕ) (st : List (ℕ × Finset ℕ)) :
    redStep fuel st ∅ = ∅ := by
  cases fuel with
  | zero => rfl
  | succ fuel =>
    unfold redStep
    rw [dif_neg]
    simp [Finset.not_nonempty_empty]

theorem redStep_succ_none {fuel : ℕ} {st : List (ℕ × Finset ℕ)} {c : Finset ℕ}
    (h : c.Nonempty) (hl : lookupCol st (c.max' h) = none) :
    redStep (fuel + 1) st c = c := by
  unfold redStep
  rw [dif_pos h, hl]

theorem redStep_succ_some {fuel : ℕ} {st : List (ℕ × Finset ℕ)} {c c' : Finset ℕ}
    (h : c.Nonempty) (hl : lookupCol st (c.max' h) = some c') :
    redStep (fuel + 1) st c = redStep fuel st (symmDiff c c') := by
  conv_lhs => unfold redStep
  rw [dif_pos h, hl]

theorem pair_max' {a b : ℕ} (hab : a < b) :
    ({a, b} : Finset ℕ).max' ⟨a, by simp⟩ = b := by
  apply le_antisymm
  · apply Finset.max'_le
    intro x hx
    rcases Finset.mem_insert.mp hx with rfl | hx
    · omega
    · rw [Finset.mem_singleton.mp hx]
  · exact Finset.le_max' _ b (by simp)

theorem symmDiff_pair {a b p : ℕ} (hab : a ≠ b) (hpb : p ≠ b) (hap : a ≠ p) :
    symmDiff ({a, b} : Finset ℕ) {p, b} = {a, p} := by
  ext x
  simp only [Finset.mem_symmDiff, Finset.mem_insert, Finset.mem_singleton]
  constructor
  · rintro (⟨h1, h2⟩ | ⟨h1, h2⟩) <;> omega
  · rintro (rfl | rfl)
    · exact Or.inl ⟨Or.inl rfl, by omega⟩
    · exact Or.inr ⟨Or.inl rfl, by omega⟩

theorem symmDiff_pair_self {a b : ℕ} :
    symmDiff ({a, b} : Finset ℕ) {a, b} = ∅ :=
  symmDiff_self _

end RedStepLemmas

section Chase

/-- The stored-state shape hypothesis for the dimension-0 chase: every stored
column whose pivot is a vertex position is a two-element column made of a
smaller vertex position (the parent) and the pivot. -/
def VShape (PV : ℕ → Prop) (st : List (ℕ × Finset ℕ)) : Prop :=
  ∀ e ∈ st, PV e.1 → ∃ a, PV a ∧ a < e.1 ∧ e.2 = {a, e.1}

/-- Reducing an edge column behaves like chasing the union-find roots of its
two vertex positions: it vanishes exactly when the roots agree, and otherwise
it stops at a fresh pivot which is the larger root, paired with a column whose
other entry has the other root. -/
theorem chase_aux {PV : ℕ → Prop} {st : List (ℕ × Finset ℕ)} (hvs : VShape PV st) :
    ∀ fuel a b, a < b → PV a → PV b → b < fuel →
      (rootOf (parOf st) a = rootOf (parOf st) b → redStep fuel st {a, b} = ∅) ∧
      (rootOf (parOf st) a ≠ rootOf (parOf st) b →
        ∃ x y, x < y ∧ PV x ∧ PV y ∧ redStep fuel st {a, b} = {x, y} ∧
          lookupCol st y = none ∧
          ((rootOf (parOf st) x = rootOf (parOf st) a ∧ y = rootOf (parOf st) b) ∨
           (rootOf (parOf st) x = rootOf (parOf st) b ∧ y = rootOf (parOf st) a))) := by
  intro fuel
  induction fuel with
  | zero => intro a b _ _ _ hb; omega
  | succ fuel ih =>
    intro a b hab hpa hpb hb
    have hne : ({a, b} : Finset ℕ).Nonempty := ⟨a, by simp⟩
    have hm : ({a, b} : Finset ℕ).max' ⟨a, by simp⟩ = b := pair_max' hab
    cases hl : lookupCol st b with
    | none =>
      have hl' : lookupCol st (({a, b} : Finset ℕ).max' ⟨a, by simp⟩) = none := by
        rw [pair_max' hab]
        exact hl
      have hred : redStep (fuel + 1) st {a, b} = {a, b} := redStep_succ_none _ hl'
      have hrb : rootOf (parOf st) b = b := rootOf_eq_self (parOf_none hl)
      constructor
      · intro heq
        exfalso
        have := rootOf_le (parOf_decreasing st) a
        omega
      · intro _
        exact ⟨a, b, hab, hpa, hpb, hred, hl, Or.inl ⟨rfl, hrb.symm⟩⟩
    | some c =>
      obtain ⟨p, hpp, hpb0, hc0⟩ := hvs (b, c) (lookupCol_mem hl) hpb
      have hpb' : p < b := hpb0
      have hc : c = {p, b} := hc0
      rw [hc] at hl
      have hpar : parOf st b = some p := parOf_pair hpb' hl
      have hrootb : rootOf (parOf st) b = rootOf (parOf st) p :=
        rootOf_parent (parOf_decreasing st) hpar
      have hl' : lookupCol st (({a, b} : Finset ℕ).max' ⟨a, by simp⟩) = some {p, b} := by
        rw [pair_max' hab]
        exact hl
      have hred : redStep (fuel + 1) st {a, b} =
          redStep fuel st (symmDiff ({a, b} : Finset ℕ) {p, b}) :=
        redStep_succ_some _ hl'
      by_cases hap : a = p
      · subst hap
        rw [symmDiff_pair_self, redStep_emptyc] at hred
        have heq : rootOf (parOf st) a = rootOf (parOf st) b := hrootb.symm
        exact ⟨fun _ => hred, fun hcon => absurd heq hcon⟩
      · rw [symmDiff_pair (by omega) (by omega) hap] at hred
        rcases Nat.lt_or_ge a p with hap' | hap'
        · have hp_lt : p < fuel := by omega
          have ihap := ih a p hap' hpa hpp hp_lt
          constructor
          · intro heq
            rw [hred]
            exact ihap.1 (by rw [heq, hrootb])
          · intro hneq
            obtain ⟨x, y, hxy, hpx, hpy, hredxy, hly, hor⟩ :=
              ihap.2 (by rw [hrootb] at hneq; exact hneq)
            refine ⟨x, y, hxy, hpx, hpy, by rw [hred, hredxy], hly, ?_⟩
            rcases hor with ⟨h1, h2⟩ | ⟨h1, h2⟩
            · exact Or.inl ⟨h1, by rw [h2, hrootb]⟩
            · exact Or.inr ⟨by rw [h1, ← hrootb], h2⟩
        · have hpa' : p < a := by omega
          have ha_lt : a < fuel := by omega
          have ihpa := ih p a hpa' hpp hpa ha_lt
          have hcomm : ({a, p} : Finset ℕ) = {p, a} := Finset.pair_comm a p
          constructor
          · intro heq
            rw [hred, hcomm]
            exact ihpa.1 (by rw [← hrootb, heq])
          · intro hneq
            obtain ⟨x, y, hxy, hpx, hpy, hredxy, hly, hor⟩ :=
              ihpa.2 (by rw [← hrootb]; intro hcon; exact hneq (hcon.symm ▸ rfl))
            refine ⟨x, y, hxy, hpx, hpy, by rw [hred, hcomm, hredxy], hly, ?_⟩
            rcases hor with ⟨h1, h2⟩ | ⟨h1, h2⟩
            · exact Or.inr ⟨by rw [h1, hrootb], h2⟩
            · exact Or.inl ⟨h1, by rw [h2, hrootb]⟩
      
end Chase

section LoopSupport

/-- With enough fuel, a reduced column is zero or has a fresh pivot. -/
theorem redStep_fully_reduced {st : List (ℕ × Finset ℕ)}
    (hmem : ∀ e ∈ st, e.1 ∈ e.2) (hmax : ∀ e ∈ st, ∀ x ∈ e.2, x ≤ e.1) :
    ∀ fuel c, (∀ x ∈ c, x < fuel) →
      redStep fuel st c = ∅ ∨ ∃ h : (redStep fuel st c).Nonempty,
        lookupCol st ((redStep fuel st c).max' h) = none := by
  intro fuel
  induction fuel with
  | zero =>
    intro c hc
    left
    have : c = ∅ := by
      by_contra hne
      obtain ⟨x, hx⟩ := Finset.nonempty_iff_ne_empty.mpr hne
      exact absurd (hc x hx) (by omega)
    rw [this]
    rfl
  | succ fuel ih =>
    intro c hc
    by_cases hne : c.Nonempty
    · cases hl : lookupCol st (c.max' hne) with
      | none =>
        right
        rw [redStep_succ_none hne hl]
        exact ⟨hne, hl⟩
      | some c' =>
        rw [redStep_succ_some hne hl]
        refine ih (symmDiff c c') ?_
        have hec := lookupCol_mem hl
        have hlmem : c.max' hne ∈ c' := hmem _ hec
        have hlup : ∀ x ∈ c', x ≤ c.max' hne := hmax _ hec
        have hltop : c.max' hne < fuel + 1 := hc _ (Finset.max'_mem c hne)
        intro x hx
        rw [Finset.mem_symmDiff] at hx
        have hxne : x ≠ c.max' hne := by
          rintro rfl
          rcases hx with ⟨_, hx2⟩ | ⟨_, hx2⟩
          · exact hx2 hlmem
          · exact hx2 (Finset.max'_mem c hne)
        have hxle : x ≤ c.max' hne := by
          rcases hx with ⟨hx1, _⟩ | ⟨hx1, _⟩
          · exact Finset.le_max' c x hx1
          · exact hlup x hx1
        omega
    · rw [Finset.not_nonempty_iff_eq_empty.mp hne, redStep_emptyc]
      exact Or.inl rfl

/-- Reduction preserves any property of the rows that stored columns respect. -/
theorem redStep_preserve {st : List (ℕ × Finset ℕ)} {Q : ℕ → Prop}
    (hst : ∀ e ∈ st, Q e.1 → ∀ x ∈ e.2, Q x) :
    ∀ fuel c, (∀ x ∈ c, Q x) → ∀ x ∈ redStep fuel st c, Q x := by
  intro fuel
  induction fuel with
  | zero => intro c hc; exact hc
  | succ fuel ih =>
    intro c hc
    by_cases hne : c.Nonempty
    · cases hl : lookupCol st (c.max' hne) with
      | none => rw [redStep_succ_none hne hl]; exact hc
      | some c' =>
        rw [redStep_succ_some hne hl]
        refine ih (symmDiff c c') ?_
        have hec := lookupCol_mem hl
        have hQc' : ∀ x ∈ c', Q x :=
          hst _ hec (hc _ (Finset.max'_mem c hne))
        intro x hx
        rw [Finset.mem_symmDiff] at hx
        rcases hx with ⟨hx1, _⟩ | ⟨hx1, _⟩
        · exact hc x hx1
        · exact hQc' x hx1
    · rw [Finset.not_nonempty_iff_eq_empty.mp hne, redStep_emptyc]
      intro x hx
      exact absurd hx (Finset.not_mem_empty x)

/-- Updating a parent map at a fresh root `y` redirects exactly the trees whose
root was `y`. -/
theorem root_update {f f' : ℕ → Option ℕ} (hf : Decreasing f) (hf' : Decreasing f')
    {y x : ℕ} (hxy : x < y) (hy : f y = none) (hupd : f' y = some x)
    (hagree : ∀ z, z ≠ y → f' z = f z) :
    ∀ z, rootOf f' z = if rootOf f z = y then rootOf f x else rootOf f z := by
  intro z
  induction z using Nat.strong_induction_on with
  | _ z ih =>
    by_cases hzy : z = y
    · subst hzy
      rw [rootOf_parent hf' hupd, rootOf_eq_self hy, if_pos rfl]
      have hx := ih x hxy
      have hrx : rootOf f x ≠ z := by
        have := rootOf_le hf x
        omega
      rw [hx, if_neg hrx]
    · cases hfz : f z with
      | none =>
        have h1 : rootOf f' z = z := rootOf_eq_self (by rw [hagree z hzy]; exact hfz)
        have h2 : rootOf f z = z := rootOf_eq_self hfz
        rw [h1, h2, if_neg hzy]
      | some w =>
        have hw : w < z := hf z w hfz
        have h1 : rootOf f' z = rootOf f' w :=
          rootOf_parent hf' (by rw [hagree z hzy]; exact hfz)
        have h2 : rootOf f z = rootOf f w := rootOf_parent hf hfz
        rw [h1, h2, ih w hw]

/-- Roots agree on a class of positions closed under the (shared) parent
map. -/
theorem root_agree_on {f f' : ℕ → Option ℕ} (hf : Decreasing f) (hf' : Decreasing f')
    {P : ℕ → Prop} (hagree : ∀ z, P z → f' z = f z)
    (hclosed : ∀ z w, P z → f z = some w → P w) :
    ∀ z, P z → rootOf f' z = rootOf f z := by
  intro z
  induction z using Nat.strong_induction_on with
  | _ z ih =>
    intro hz
    cases hfz : f z with
    | none => rw [rootOf_eq_self (by rw [hagree z hz]; exact hfz), rootOf_eq_self hfz]
    | some w =>
      have hw : w < z := hf z w hfz
      have h1 : rootOf f' z = rootOf f' w :=
        rootOf_parent hf' (by rw [hagree z hz]; exact hfz)
      have h2 : rootOf f z = rootOf f w := rootOf_parent hf hfz
      rw [h1, h2]
      exact ih w hw (hclosed z w hz hfz)

end LoopSupport

section MergeSupport

theorem pair_eq_pair_cases {β : Type} [DecidableEq β] {x y u v : β} (hxy : x ≠ y)
    (h : ({x, y} : Finset β) = {u, v}) : (x = u ∧ y = v) ∨ (x = v ∧ y = u) := by
  have hx : x ∈ ({u, v} : Finset β) := h ▸ (by simp)
  have hy : y ∈ ({u, v} : Finset β) := h ▸ (by simp)
  simp only [Finset.mem_insert, Finset.mem_singleton] at hx hy
  rcases hx with rfl | rfl
  · rcases hy with rfl | rfl
    · exact absurd rfl hxy
    · exact Or.inl ⟨rfl, rfl⟩
  · rcases hy with rfl | rfl
    · exact Or.inr ⟨rfl, rfl⟩
    · exact absurd rfl hxy

theorem merge_logic {Rz Rw Ru Rv Rx y : ℕ} (hne : Ru ≠ Rv) (hxy : Rx ≠ y)
    (hd : (Rx = Ru ∧ y = Rv) ∨ (Rx = Rv ∧ y = Ru)) :
    (Rz = Rw ∨ (Rz = Ru ∧ Rv = Rw) ∨ (Rz = Rv ∧ Ru = Rw)) ↔
      ((if Rz = y then Rx else Rz) = if Rw = y then Rx else Rw) := by
  rcases hd with ⟨rfl, rfl⟩ | ⟨rfl, rfl⟩ <;> split_ifs <;> omega

theorem prefAdj_succ_non_pair {n : ℕ} {fil : List (Finset (Fin n))} {j : ℕ}
    (hcard : ∀ hj : j < fil.length, (fil.get ⟨j, hj⟩).card ≠ 2) :
    ∀ u v, prefAdj fil (j + 1) u v ↔ prefAdj fil j u v := by
  intro u v
  constructor
  · rintro ⟨huv, i, hij, hi, hget⟩
    rcases Nat.lt_or_ge i j with h' | h'
    · exact ⟨huv, i, h', hi, hget⟩
    · have hij' : i = j := by omega
      subst hij'
      exact absurd (by rw [hget, Finset.card_pair huv]) (hcard hi)
  · rintro ⟨huv, i, hij, hi, hget⟩
    exact ⟨huv, i, by omega, hi, hget⟩

theorem prefAdj_succ_pair {n : ℕ} {fil : List (Finset (Fin n))} {j : ℕ}
    (hj : j < fil.length) {u v : Fin n} (huv : u ≠ v)
    (hget : fil.get ⟨j, hj⟩ = {u, v}) :
    ∀ x y, prefAdj fil (j + 1) x y ↔
      prefAdj fil j x y ∨ (x = u ∧ y = v) ∨ (x = v ∧ y = u) := by
  intro x y
  constructor
  · rintro ⟨hxy, i, hij, hi, hgi⟩
    rcases Nat.lt_or_ge i j with h' | h'
    · exact Or.inl ⟨hxy, i, h', hi, hgi⟩
    · have hij' : i = j := by omega
      subst hij'
      exact Or.inr (pair_eq_pair_cases hxy (hgi.symm.trans hget))
  · rintro (⟨hxy, i, hij, hi, hgi⟩ | ⟨rfl, rfl⟩ | ⟨rfl, rfl⟩)
    · exact ⟨hxy, i, by omega, hi, hgi⟩
    · exact ⟨huv, j, by omega, hj, hget⟩
    · exact ⟨huv.symm, j, by omega, hj, by rw [hget, Finset.pair_comm]⟩

theorem indexOf_singleton_inj {n : ℕ} {fil : List (Finset (Fin n))} {u v : Fin n}
    (hu : ({u} : Finset (Fin n)) ∈ fil) (hv : ({v} : Finset (Fin n)) ∈ fil)
    (h : fil.indexOf ({u} : Finset (Fin n)) = fil.indexOf ({v} : Finset (Fin n))) :
    u = v := by
  have hlu := List.indexOf_lt_length.mpr hu
  have hgu := List.indexOf_get hlu
  have hlv := List.indexOf_lt_length.mpr hv
  have hgv := List.indexOf_get hlv
  have hs : ({u} : Finset (Fin n)) = {v} := by
    rw [← hgu, ← hgv]
    congr 1
    exact Fin.ext h
  exact Finset.singleton_inj.mp hs

theorem lookupCol_cons_self {st : List (ℕ × Finset ℕ)} {l : ℕ} {c : Finset ℕ} :
    lookupCol ((l, c) :: st) l = some c := by
  unfold lookupCol
  simp

theorem lookupCol_cons_ne {st : List (ℕ × Finset ℕ)} {l : ℕ} {c : Finset ℕ}
    {x : ℕ} (h : x ≠ l) : lookupCol ((l, c) :: st) x = lookupCol st x := by
  unfold lookupCol
  rw [List.find?_cons_of_neg]
  simp
  omega

theorem erase_pair_sup {a z : ℕ} (h : a < z) :
    ((({a, z} : Finset ℕ)).erase z).sup id = a := by
  have he : ({a, z} : Finset ℕ).erase z = {a} := by
    rw [Finset.pair_comm]
    exact Finset.erase_insert (by simp; omega)
  rw [he, Finset.sup_singleton, id]

theorem parOf_PV_closed {PV : ℕ → Prop} {st : List (ℕ × Finset ℕ)}
    (hvs : VShape PV st) :
    ∀ z w, PV z → parOf st z = some w → PV w := by
  intro z w hz hp
  unfold parOf at hp
  cases hl : lookupCol st z with
  | none => rw [hl] at hp; simp at hp
  | some c =>
    rw [hl] at hp
    simp only [Option.some_bind] at hp
    split_ifs at hp with hlt
    obtain rfl := Option.some.inj hp
    obtain ⟨a, hpa, hlt', hc0⟩ := hvs (z, c) (lookupCol_mem hl) hz
    have hc : c = {a, z} := hc0
    rw [hc, erase_pair_sup hlt']
    exact hpa

theorem rootOf_PV {PV : ℕ → Prop} {st : List (ℕ × Finset ℕ)} (hvs : VShape PV st) :
    ∀ z, PV z → PV (rootOf (parOf st) z) := by
  intro z
  induction z using Nat.strong_induction_on with
  | _ z ih =>
    intro hz
    cases hp : parOf st z with
    | none => rw [rootOf_eq_self hp]; exact hz
    | some w =>
      rw [rootOf_parent (parOf_decreasing st) hp]
      exact ih w (parOf_decreasing st z w hp) (parOf_PV_closed hvs z w hz hp)

end MergeSupport

section Dim0Loop

variable {α : Type} [LinearOrder α]

theorem parOf_cons_ne {st : List (ℕ × Finset ℕ)} {l : ℕ} {c : Finset ℕ} {x : ℕ}
    (h : x ≠ l) : parOf ((l, c) :: st) x = parOf st x := by
  unfold parOf
  rw [lookupCol_cons_ne h]

/-- The dimension-0 loop invariant after processing the first `j` columns of
the filtration: stored pivots are the maxima of their columns and are
pairwise distinct; stored columns at vertex positions are parent links between
vertex positions; stored columns elsewhere avoid vertex positions; the births
recorded so far are exactly the stored pivots and no death is a vertex
position; and connectivity through the processed edges is root equality of the
parent forest. -/
structure Dim0Inv {n : ℕ} (D : Fin n → Fin n → WithTop α) (t : WithTop α) (k : ℕ)
    (j : ℕ) (st : List (ℕ × Finset ℕ)) (prs : List (ℕ × ℕ)) : Prop where
  keys_nodup : (st.map Prod.fst).Nodup
  pivot_mem : ∀ e ∈ st, e.1 ∈ e.2
  pivot_max : ∀ e ∈ st, ∀ x ∈ e.2, x ≤ e.1
  vshape : VShape (PVf (vrFiltration n D t k)) st
  nvshape : ∀ e ∈ st, ¬ PVf (vrFiltration n D t k) e.1 →
    ∀ x ∈ e.2, ¬ PVf (vrFiltration n D t k) x
  prs_keys : prs.map Prod.fst = (st.map Prod.fst).reverse
  deaths_nv : ∀ x ∈ prs.map Prod.snd, ¬ PVf (vrFiltration n D t k) x
  conn_iff : ∀ u v : Fin n,
    prefConn (vrFiltration n D t k) j u v ↔
      rootOf (parOf st) ((vrFiltration n D t k).indexOf ({u} : Finset (Fin n))) =
        rootOf (parOf st) ((vrFiltration n D t k).indexOf ({v} : Finset (Fin n)))

theorem parOf_nil (x : ℕ) : parOf [] x = none := rfl

theorem dim0_init {n : ℕ} [Zero α] (D : Fin n → Fin n → WithTop α) (t : WithTop α)
    (k : ℕ) (hdiag : ∀ v, D v v = 0) (ht : ((0 : α) : WithTop α) ≤ t) :
    Dim0Inv D t k 0 [] [] := by
  refine ⟨List.nodup_nil, ?_, ?_, ?_, ?_, rfl, ?_, ?_⟩
  · intro e he; exact absurd he (List.not_mem_nil e)
  · intro e he; exact absurd he (List.not_mem_nil e)
  · intro e he; exact absurd he (List.not_mem_nil e)
  · intro e he; exact absurd he (List.not_mem_nil e)
  · intro x hx; simp at hx
  · intro u v
    have hroots : ∀ z : ℕ, rootOf (parOf []) z = z := fun z => rootOf_eq_self (parOf_nil z)
    rw [hroots, hroots]
    constructor
    · intro h
      induction h with
      | refl => rfl
      | tail _ hstep ih =>
        obtain ⟨_, i, hi0, _, _⟩ := hstep
        omega
    · intro h
      have : u = v := indexOf_singleton_inj
        (vertex_mem_filtration D t k hdiag ht u)
        (vertex_mem_filtration D t k hdiag ht v) h
      rw [this]
      exact Relation.ReflTransGen.refl

end Dim0Loop

section Dim0EdgeStep

variable {α : Type} [LinearOrder α]

/-- Processing an edge column merges the components of its endpoints (or
records nothing new when they were already connected), preserving the
dimension-0 invariant. -/
theorem dim0_step_edge {n : ℕ} [Zero α] {D : Fin n → Fin n → WithTop α}
    {t : WithTop α} {k : ℕ} (hdiag : ∀ v, D v v = 0)
    (ht : ((0 : α) : WithTop α) ≤ t) {j : ℕ}
    (hj : j < (vrFiltration n D t k).length) {st : List (ℕ × Finset ℕ)}
    {prs : List (ℕ × ℕ)} (hinv : Dim0Inv D t k j st prs)
    {u v : Fin n} (huv : u ≠ v)
    (hguv : (vrFiltration n D t k).get ⟨j, hj⟩ = {u, v})
    (horder : (vrFiltration n D t k).indexOf ({u} : Finset (Fin n)) <
      (vrFiltration n D t k).indexOf ({v} : Finset (Fin n)))
    (r : Finset ℕ)
    (hr : redStep (vrFiltration n D t k).length st
      (bcol (vrFiltration n D t k) ((vrFiltration n D t k).get ⟨j, hj⟩)) = r) :
    (∀ h : r.Nonempty,
      Dim0Inv D t k (j + 1) ((r.max' h, r) :: st) (prs ++ [(r.max' h, j)])) ∧
    (¬ r.Nonempty → Dim0Inv D t k (j + 1) st prs) := by
  have hum : ({u} : Finset (Fin n)) ∈ vrFiltration n D t k :=
    vertex_mem_filtration D t k hdiag ht u
  have hvm : ({v} : Finset (Fin n)) ∈ vrFiltration n D t k :=
    vertex_mem_filtration D t k hdiag ht v
  have hPVa : PVf (vrFiltration n D t k)
      ((vrFiltration n D t k).indexOf ({u} : Finset (Fin n))) := ⟨u, hum, rfl⟩
  have hPVb : PVf (vrFiltration n D t k)
      ((vrFiltration n D t k).indexOf ({v} : Finset (Fin n))) := ⟨v, hvm, rfl⟩
  have hbcolEq : bcol (vrFiltration n D t k) ((vrFiltration n D t k).get ⟨j, hj⟩) =
      {(vrFiltration n D t k).indexOf ({u} : Finset (Fin n)),
       (vrFiltration n D t k).indexOf ({v} : Finset (Fin n))} := by
    rw [hguv, bcol_pair _ huv, Finset.pair_comm]
  have hblt := bcol_lt D t k hj
  have hbj : (vrFiltration n D t k).indexOf ({v} : Finset (Fin n)) < j :=
    hblt _ (by rw [hbcolEq]; simp)
  have hbfuel : (vrFiltration n D t k).indexOf ({v} : Finset (Fin n)) <
      (vrFiltration n D t k).length := by omega
  have hchase := chase_aux hinv.vshape (vrFiltration n D t k).length _ _
    horder hPVa hPVb hbfuel
  have hcard2 : ((vrFiltration n D t k).get ⟨j, hj⟩).card = 2 := by
    rw [hguv]
    exact Finset.card_pair huv
  have hnotPVj : ¬ PVf (vrFiltration n D t k) j := by
    intro hpv
    have h1 := (PVf_iff_card_one D t k hj).mp hpv
    omega
  have hadj := prefAdj_succ_pair hj huv hguv
  have hnew : ∀ z w : Fin n, prefConn (vrFiltration n D t k) (j + 1) z w ↔
      (prefConn (vrFiltration n D t k) j z w ∨
        (prefConn (vrFiltration n D t k) j z u ∧ prefConn (vrFiltration n D t k) j v w) ∨
        (prefConn (vrFiltration n D t k) j z v ∧ prefConn (vrFiltration n D t k) j u w)) :=
    fun z w => (rtg_congr hadj).trans
      (rtg_union_edge (prefAdj (vrFiltration n D t k) j) u v z w)
  by_cases heq : rootOf (parOf st) ((vrFiltration n D t k).indexOf ({u} : Finset (Fin n))) =
      rootOf (parOf st) ((vrFiltration n D t k).indexOf ({v} : Finset (Fin n)))
  · have hr0 : r = ∅ := by
      rw [← hr, hbcolEq]
      exact hchase.1 heq
    obtain rfl := hr0
    constructor
    · intro h
      exact absurd h (by simp)
    · intro _
      refine ⟨hinv.keys_nodup, hinv.pivot_mem, hinv.pivot_max, hinv.vshape,
        hinv.nvshape, hinv.prs_keys, hinv.deaths_nv, ?_⟩
      intro z w
      rw [hnew z w]
      simp only [hinv.conn_iff]
      constructor
      · rintro (h1 | ⟨h1, h2⟩ | ⟨h1, h2⟩)
        · exact h1
        · exact h1.trans (heq.trans h2)
        · exact h1.trans (heq.symm.trans h2)
      · intro h1
        exact Or.inl h1
  · obtain ⟨x, y, hxy, hPVx, hPVy, hredxy, hly, hor⟩ := hchase.2 heq
    have hrxy : r = {x, y} := by
      rw [← hr, hbcolEq]
      exact hredxy
    obtain rfl := hrxy
    constructor
    · intro h
      have hmax : ({x, y} : Finset ℕ).max' h = y := pair_max' hxy
      rw [hmax]
      have hynotkey : y ∉ st.map Prod.fst := by
        rw [List.mem_map]
        rintro ⟨e, he, hey⟩
        exact (lookupCol_eq_none_iff.mp hly e he) hey
      have hupdate := root_update (parOf_decreasing st)
        (parOf_decreasing ((y, ({x, y} : Finset ℕ)) :: st)) hxy
        (parOf_none hly) (parOf_pair hxy lookupCol_cons_self)
        (fun z hz => parOf_cons_ne hz)
      have hrxley : rootOf (parOf st) x ≠ y := by
        have := rootOf_le (parOf_decreasing st) x
        omega
      refine ⟨?_, ?_, ?_, ?_, ?_, ?_, ?_, ?_⟩
      · exact List.nodup_cons.mpr ⟨by simpa using hynotkey, hinv.keys_nodup⟩
      · intro e he
        rcases List.mem_cons.mp he with rfl | he'
        · simp
        · exact hinv.pivot_mem e he'
      · intro e he
        rcases List.mem_cons.mp he with rfl | he'
        · intro z hz
          simp only [Finset.mem_insert, Finset.mem_singleton] at hz
          rcases hz with rfl | rfl
          · exact le_of_lt hxy
          · exact le_refl _
        · exact hinv.pivot_max e he'
      · intro e he
        rcases List.mem_cons.mp he with rfl | he'
        · intro _
          exact ⟨x, hPVx, hxy, rfl⟩
        · exact hinv.vshape e he'
      · intro e he
        rcases List.mem_cons.mp he with rfl | he'
        · intro hn
          exact absurd hPVy hn
        · exact hinv.nvshape e he'
      · simp only [List.map_append, List.map_cons, List.map_nil, List.reverse_cons,
          hinv.prs_keys]
      · intro z hz
        rw [List.map_append, List.mem_append] at hz
        rcases hz with hz | hz
        · exact hinv.deaths_nv z hz
        · simp only [List.map_cons, List.map_nil, List.mem_singleton] at hz
          obtain rfl := hz
          exact hnotPVj
      · intro z w
        rw [hnew z w]
        simp only [hinv.conn_iff]
        rw [hupdate, hupdate]
        exact merge_logic heq hrxley hor
    · intro hcon
      exact absurd (⟨x, by simp⟩ : ({x, y} : Finset ℕ).Nonempty) hcon

end Dim0EdgeStep

section Dim0FullStep

variable {α : Type} [LinearOrder α]

/-- Processing any one column preserves the dimension-0 invariant. -/
theorem dim0_step {n : ℕ} [Zero α] {D : Fin n → Fin n → WithTop α}
    {t : WithTop α} {k : ℕ} (hdiag : ∀ v, D v v = 0)
    (ht : ((0 : α) : WithTop α) ≤ t) {j : ℕ}
    (hj : j < (vrFiltration n D t k).length) {st : List (ℕ × Finset ℕ)}
    {prs : List (ℕ × ℕ)} (hinv : Dim0Inv D t k j st prs)
    (r : Finset ℕ)
    (hr : redStep (vrFiltration n D t k).length st
      (bcol (vrFiltration n D t k) ((vrFiltration n D t k).get ⟨j, hj⟩)) = r) :
    (∀ h : r.Nonempty,
      Dim0Inv D t k (j + 1) ((r.max' h, r) :: st) (prs ++ [(r.max' h, j)])) ∧
    (¬ r.Nonempty → Dim0Inv D t k (j + 1) st prs) := by
  have hpos := fil_card_pos D t k hj
  rcases show ((vrFiltration n D t k).get ⟨j, hj⟩).card = 1 ∨
      ((vrFiltration n D t k).get ⟨j, hj⟩).card = 2 ∨
      3 ≤ ((vrFiltration n D t k).get ⟨j, hj⟩).card by omega with h1 | h2 | h3
  · -- vertex column: empty boundary, nothing happens
    obtain ⟨w, hw⟩ := Finset.card_eq_one.mp h1
    have hr0 : r = ∅ := by
      rw [← hr, hw, bcol_singleton, redStep_emptyc]
    obtain rfl := hr0
    have hcong : ∀ z w', prefAdj (vrFiltration n D t k) (j + 1) z w' ↔
        prefAdj (vrFiltration n D t k) j z w' := by
      refine prefAdj_succ_non_pair ?_
      intro hj'
      have hsame : (vrFiltration n D t k).get ⟨j, hj'⟩ =
          (vrFiltration n D t k).get ⟨j, hj⟩ := rfl
      rw [hsame, hw, Finset.card_singleton]
      omega
    constructor
    · intro h
      exact absurd h (by simp)
    · intro _
      refine ⟨hinv.keys_nodup, hinv.pivot_mem, hinv.pivot_max, hinv.vshape,
        hinv.nvshape, hinv.prs_keys, hinv.deaths_nv, ?_⟩
      intro z w'
      rw [show prefConn (vrFiltration n D t k) (j + 1) z w' ↔
        prefConn (vrFiltration n D t k) j z w' from rtg_congr hcong]
      exact hinv.conn_iff z w'
  · -- edge column
    obtain ⟨u, v, huv, hguv⟩ := Finset.card_eq_two.mp h2
    have hum : ({u} : Finset (Fin n)) ∈ vrFiltration n D t k :=
      vertex_mem_filtration D t k hdiag ht u
    have hvm : ({v} : Finset (Fin n)) ∈ vrFiltration n D t k :=
      vertex_mem_filtration D t k hdiag ht v
    have hne : (vrFiltration n D t k).indexOf ({u} : Finset (Fin n)) ≠
        (vrFiltration n D t k).indexOf ({v} : Finset (Fin n)) :=
      fun hcon => huv (indexOf_singleton_inj hum hvm hcon)
    rcases Nat.lt_or_ge ((vrFiltration n D t k).indexOf ({u} : Finset (Fin n)))
        ((vrFiltration n D t k).indexOf ({v} : Finset (Fin n))) with ho | ho
    · exact dim0_step_edge hdiag ht hj hinv huv hguv ho r hr
    · have ho' : (vrFiltration n D t k).indexOf ({v} : Finset (Fin n)) <
          (vrFiltration n D t k).indexOf ({u} : Finset (Fin n)) := by omega
      have hguv' : (vrFiltration n D t k).get ⟨j, hj⟩ = {v, u} := by
        rw [hguv, Finset.pair_comm]
      exact dim0_step_edge hdiag ht hj hinv huv.symm hguv' ho' r hr
  · -- higher column: no vertex positions involved
    have hbnp := bcol_high_not_PVf D t k hj h3
    have hblt := bcol_lt D t k hj
    have hrnp : ∀ x ∈ r, ¬ PVf (vrFiltration n D t k) x := by
      rw [← hr]
      exact redStep_preserve hinv.nvshape (vrFiltration n D t k).length _ hbnp
    have hfr := redStep_fully_reduced hinv.pivot_mem hinv.pivot_max
      (vrFiltration n D t k).length
      (bcol (vrFiltration n D t k) ((vrFiltration n D t k).get ⟨j, hj⟩))
      (fun x hx => lt_trans (hblt x hx) hj)
    rw [hr] at hfr
    have hnotPVj : ¬ PVf (vrFiltration n D t k) j := by
      intro hpv
      have := (PVf_iff_card_one D t k hj).mp hpv
      omega
    have hcong : ∀ z w', prefAdj (vrFiltration n D t k) (j + 1) z w' ↔
        prefAdj (vrFiltration n D t k) j z w' := by
      refine prefAdj_succ_non_pair ?_
      intro hj'
      have hsame : (vrFiltration n D t k).get ⟨j, hj'⟩ =
          (vrFiltration n D t k).get ⟨j, hj⟩ := rfl
      rw [hsame]
      omega
    have hconn' : ∀ z w', prefConn (vrFiltration n D t k) (j + 1) z w' ↔
        prefConn (vrFiltration n D t k) j z w' := fun z w' => rtg_congr hcong
    constructor
    · intro h
      have hly : lookupCol st (r.max' h) = none := by
        rcases hfr with hemp | ⟨h', hly⟩
        · obtain rfl := hemp
          exact absurd h (by simp)
        · exact hly
      have hynv : ¬ PVf (vrFiltration n D t k) (r.max' h) :=
        hrnp _ (Finset.max'_mem r h)
      have hynotkey : r.max' h ∉ st.map Prod.fst := by
        rw [List.mem_map]
        rintro ⟨e, he, hey⟩
        exact (lookupCol_eq_none_iff.mp hly e he) hey
      have hagr : ∀ p, PVf (vrFiltration n D t k) p →
          rootOf (parOf ((r.max' h, r) :: st)) p = rootOf (parOf st) p := by
        refine root_agree_on (parOf_decreasing st)
          (parOf_decreasing ((r.max' h, r) :: st)) ?_
          (parOf_PV_closed hinv.vshape)
        intro p hp
        refine parOf_cons_ne ?_
        rintro rfl
        exact hynv hp
      refine ⟨?_, ?_, ?_, ?_, ?_, ?_, ?_, ?_⟩
      · exact List.nodup_cons.mpr ⟨by simpa using hynotkey, hinv.keys_nodup⟩
      · intro e he
        rcases List.mem_cons.mp he with rfl | he'
        · exact Finset.max'_mem r h
        · exact hinv.pivot_mem e he'
      · intro e he
        rcases List.mem_cons.mp he with rfl | he'
        · intro z hz
          exact Finset.le_max' r z hz
        · exact hinv.pivot_max e he'
      · intro e he
        rcases List.mem_cons.mp he with rfl | he'
        · intro hpv
          exact absurd hpv hynv
        · exact hinv.vshape e he'
      · intro e he
        rcases List.mem_cons.mp he with rfl | he'
        · intro _
          exact hrnp
        · exact hinv.nvshape e he'
      · simp only [List.map_append, List.map_cons, List.map_nil, List.reverse_cons,
          hinv.prs_keys]
      · intro z hz
        rw [List.map_append, List.mem_append] at hz
        rcases hz with hz | hz
        · exact hinv.deaths_nv z hz
        · simp only [List.map_cons, List.map_nil, List.mem_singleton] at hz
          obtain rfl := hz
          exact hnotPVj
      · intro z w'
        rw [hconn' z w', hinv.conn_iff z w']
        rw [hagr _ ⟨z, vertex_mem_filtration D t k hdiag ht z, rfl⟩,
          hagr _ ⟨w', vertex_mem_filtration D t k hdiag ht w', rfl⟩]
    · intro _
      refine ⟨hinv.keys_nodup, hinv.pivot_mem, hinv.pivot_max, hinv.vshape,
        hinv.nvshape, hinv.prs_keys, hinv.deaths_nv, ?_⟩
      intro z w'
      rw [hconn' z w']
      exact hinv.conn_iff z w'

end Dim0FullStep

section Dim0Run

variable {α : Type} [LinearOrder α]

theorem redLoop_dim0 {n : ℕ} [Zero α] {D : Fin n → Fin n → WithTop α}
    {t : WithTop α} {k : ℕ} (hdiag : ∀ v, D v v = 0)
    (ht : ((0 : α) : WithTop α) ≤ t) :
    ∀ (rest : List (Finset (Fin n))) (j : ℕ) (st : List (ℕ × Finset ℕ))
      (prs : List (ℕ × ℕ)),
      (∀ i (hi : i < rest.length), ∃ hfi : j + i < (vrFiltration n D t k).length,
        rest.get ⟨i, hi⟩ = (vrFiltration n D t k).get ⟨j + i, hfi⟩) →
      Dim0Inv D t k j st prs →
      Dim0Inv D t k (j + rest.length)
        (redLoop (vrFiltration n D t k).length (vrFiltration n D t k) rest j
          (st, prs)).1
        (redLoop (vrFiltration n D t k).length (vrFiltration n D t k) rest j
          (st, prs)).2 := by
  intro rest
  induction rest with
  | nil =>
    intro j st prs _ hinv
    exact hinv
  | cons s rest ih =>
    intro j st prs hrest hinv
    obtain ⟨hfj, hs⟩ := hrest 0 (by simp)
    have hfj' : j < (vrFiltration n D t k).length := by omega
    have hs' : s = (vrFiltration n D t k).get ⟨j, hfj'⟩ := hs
    have hr : redStep (vrFiltration n D t k).length st
        (bcol (vrFiltration n D t k) ((vrFiltration n D t k).get ⟨j, hfj'⟩)) =
        redStep (vrFiltration n D t k).length st
          (bcol (vrFiltration n D t k) s) := by
      rw [← hs']
    have hstep := dim0_step hdiag ht hfj' hinv
      (redStep (vrFiltration n D t k).length st (bcol (vrFiltration n D t k) s)) hr
    have hrest' : ∀ i (hi : i < rest.length),
        ∃ hfi : (j + 1) + i < (vrFiltration n D t k).length,
          rest.get ⟨i, hi⟩ = (vrFiltration n D t k).get ⟨(j + 1) + i, hfi⟩ := by
      intro i hi
      obtain ⟨hfi, hgi⟩ := hrest (i + 1) (by simpa using Nat.succ_lt_succ hi)
      refine ⟨by omega, ?_⟩
      rw [show rest.get ⟨i, hi⟩ = (s :: rest).get ⟨i + 1, by simpa using Nat.succ_lt_succ hi⟩
        from rfl, hgi]
      congr 1
      exact Fin.ext (show j + (i + 1) = (j + 1) + i by omega)
    have harith : (j + 1) + rest.length = j + (s :: rest).length := by
      simp [List.length_cons]
      omega
    simp only [redLoop]
    by_cases hne : (redStep (vrFiltration n D t k).length st
        (bcol (vrFiltration n D t k) s)).Nonempty
    · rw [dif_pos hne]
      have hres := ih (j + 1) _ _ hrest' (hstep.1 hne)
      rw [harith] at hres
      exact hres
    · rw [dif_neg hne]
      have hres := ih (j + 1) _ _ hrest' (hstep.2 hne)
      rw [harith] at hres
      exact hres

theorem runRed_dim0 {n : ℕ} [Zero α] {D : Fin n → Fin n → WithTop α}
    {t : WithTop α} {k : ℕ} (hdiag : ∀ v, D v v = 0)
    (ht : ((0 : α) : WithTop α) ≤ t) :
    Dim0Inv D t k (vrFiltration n D t k).length
      (runRed (vrFiltration n D t k)).1 (runRed (vrFiltration n D t k)).2 := by
  unfold runRed
  have h := redLoop_dim0 hdiag ht (vrFiltration n D t k) 0 [] []
    (fun i hi => ⟨by omega, by congr 1; exact Fin.ext (show i = 0 + i by omega)⟩)
    (dim0_init D t k hdiag ht)
  simpa using h

end Dim0Run

section Dim0Bridge

variable {α : Type} [LinearOrder α]

instance PVfDec {n : ℕ} (fil : List (Finset (Fin n))) : DecidablePred (PVf fil) :=
  fun x => inferInstanceAs (Decidable (∃ v : Fin n,
    ({v} : Finset (Fin n)) ∈ fil ∧ fil.indexOf ({v} : Finset (Fin n)) = x))

theorem lookupCol_none_iff_not_key {st : List (ℕ × Finset ℕ)} {l : ℕ} :
    lookupCol st l = none ↔ l ∉ st.map Prod.fst := by
  rw [lookupCol_eq_none_iff]
  constructor
  · intro h hc
    obtain ⟨e, he, hel⟩ := List.mem_map.mp hc
    exact h e he hel
  · intro h e he hel
    exact h (List.mem_map.mpr ⟨e, he, hel⟩)

theorem parOf_none_iff {PV : ℕ → Prop} {st : List (ℕ × Finset ℕ)}
    (hvs : VShape PV st) {x : ℕ} (hx : PV x) :
    parOf st x = none ↔ lookupCol st x = none := by
  constructor
  · intro h
    cases hl : lookupCol st x with
    | none => rfl
    | some c =>
      obtain ⟨a, hpa, hax, hc0⟩ := hvs (x, c) (lookupCol_mem hl) hx
      have hc' : c = {a, x} := hc0
      rw [hc'] at hl
      rw [parOf_pair hax hl] at h
      exact absurd h (by simp)
  · exact parOf_none

theorem prefAdj_full_iff {n : ℕ} (D : Fin n → Fin n → WithTop α) (t : WithTop α)
    (k : ℕ) : ∀ u v : Fin n,
    prefAdj (vrFiltration n D t k) (vrFiltration n D t k).length u v ↔
      thrAdj D t u v := by
  intro u v
  constructor
  · rintro ⟨huv, i, hilen, hi, hget⟩
    have hin := (mem_vrFiltration_iff D t k).mp (hget ▸ List.get_mem _ _ hi)
    exact ⟨huv, hin.2.1, hin.2.2⟩
  · rintro ⟨huv, hle, hne⟩
    have hin : inFilt D t k ({u, v} : Finset (Fin n)) :=
      ⟨by rw [Finset.card_pair huv]; omega, hle, hne⟩
    have hmem := (mem_vrFiltration_iff D t k).mpr hin
    have hilt := List.indexOf_lt_length.mpr hmem
    exact ⟨huv, _, hilt, hilt, List.indexOf_get hilt⟩

theorem thrConn_iff_prefConn {n : ℕ} (D : Fin n → Fin n → WithTop α)
    (t : WithTop α) (k : ℕ) : ∀ u v : Fin n,
    thrConn D t u v ↔
      prefConn (vrFiltration n D t k) (vrFiltration n D t k).length u v :=
  fun _ _ => (rtg_congr (prefAdj_full_iff D t k)).symm

theorem dimAt0_iff_PVf {n : ℕ} (D : Fin n → Fin n → WithTop α) (t : WithTop α)
    (k : ℕ) {j : ℕ} (hj : j < (vrFiltration n D t k).length) :
    dimAt (vrFiltration n D t k) j = 0 ↔ PVf (vrFiltration n D t k) j := by
  unfold dimAt
  rw [List.getD_eq_getElem _ _ hj]
  have hpos := fil_card_pos D t k hj
  rw [PVf_iff_card_one D t k hj]
  simp only [List.get_eq_getElem] at hpos ⊢
  omega

end Dim0Bridge

section Dim0Count

variable {α : Type} [LinearOrder α]

theorem countP_filterMap_if {γ β : Type} (l : List γ) (P : γ → Prop)
    [DecidablePred P] (g : γ → β) (q : β → Bool) :
    (l.filterMap (fun a => if P a then some (g a) else none)).countP q =
      l.countP (fun a => decide (P a) && q (g a)) := by
  rw [List.countP_filterMap]
  apply List.countP_congr
  intro a _
  by_cases hP : P a <;> simp [hP]

/-- The finite dimension-0 points of the diagram are counted by the pairs
whose birth is a vertex position. -/
theorem fin_dim0_count_aux {n : ℕ} [Zero α] (D : Fin n → Fin n → WithTop α)
    (t : WithTop α) (dims : Finset ℕ) (hdiag : ∀ v, D v v = 0)
    (ht : ((0 : α) : WithTop α) ≤ t) (h0d : 0 ∈ dims) :
    (persDiagram n D t dims).countP
        (fun tr => decide (tr.2.2 = 0 ∧ tr.2.1 ≠ ⊤)) =
      (runRed (vrFiltration n D t (dims.sup id))).2.countP
        (fun p => decide (PVf (vrFiltration n D t (dims.sup id)) p.1)) := by
  have hbound := runRed_bound D t (dims.sup id)
  simp only [persDiagram]
  rw [List.countP_append, countP_filterMap_if, countP_filterMap_if]
  simp
  apply List.countP_congr
  intro p hp
  have hb := hbound p hp
  simp only [Bool.and_eq_true, decide_eq_true_eq]
  constructor
  · rintro ⟨h1, h2, h3⟩
    exact (dimAt0_iff_PVf D t (dims.sup id) (lt_trans hb.1 hb.2)).mp h2
  · intro hPV
    have hd0 : dimAt (vrFiltration n D t (dims.sup id)) p.1 = 0 :=
      (dimAt0_iff_PVf D t (dims.sup id) (lt_trans hb.1 hb.2)).mpr hPV
    exact ⟨by rw [hd0]; exact h0d, hd0,
      by simpa using fvalAt_ne_top D t (dims.sup id) hb.2⟩

/-- The essential dimension-0 points of the diagram are counted by the vertex
positions that remain roots of the parent forest. -/
theorem ess_dim0_count_aux {n : ℕ} [Zero α] (D : Fin n → Fin n → WithTop α)
    (t : WithTop α) (dims : Finset ℕ) (hdiag : ∀ v, D v v = 0)
    (ht : ((0 : α) : WithTop α) ≤ t) (h0d : 0 ∈ dims) :
    (persDiagram n D t dims).countP
        (fun tr => decide (tr.2.2 = 0 ∧ tr.2.1 = ⊤)) =
      (List.range (vrFiltration n D t (dims.sup id)).length).countP
        (fun j => decide (PVf (vrFiltration n D t (dims.sup id)) j ∧
          parOf (runRed (vrFiltration n D t (dims.sup id))).1 j = none)) := by
  have hinv := @runRed_dim0 α _ n _ D t (dims.sup id) hdiag ht
  have hbound := runRed_bound D t (dims.sup id)
  simp only [persDiagram]
  rw [List.countP_append, countP_filterMap_if, countP_filterMap_if]
  trans 0 + (List.range (vrFiltration n D t (dims.sup id)).length).countP
    (fun j => decide (PVf (vrFiltration n D t (dims.sup id)) j ∧
      parOf (runRed (vrFiltration n D t (dims.sup id))).1 j = none))
  · congr 1
    · apply List.countP_eq_zero.mpr
      intro p hp
      have hb := hbound p hp
      have hne := fvalAt_ne_top D t (dims.sup id) hb.2
      simp [hne]
    · apply List.countP_congr
      intro j hj
      rw [List.mem_range] at hj
      simp only [Bool.and_eq_true, decide_eq_true_eq]
      have hkey : (runRed (vrFiltration n D t (dims.sup id))).2.map Prod.fst =
          ((runRed (vrFiltration n D t (dims.sup id))).1.map Prod.fst).reverse :=
        hinv.prs_keys
      constructor
      · rintro ⟨⟨hfst, hsnd, _⟩, hd0, _⟩
        have hPV := (dimAt0_iff_PVf D t (dims.sup id) hj).mp hd0
        refine ⟨hPV, ?_⟩
        rw [parOf_none_iff hinv.vshape hPV, lookupCol_none_iff_not_key]
        intro hc
        apply hfst
        rw [hkey]
        simpa using hc
      · rintro ⟨hPV, hpar⟩
        have hd0 := (dimAt0_iff_PVf D t (dims.sup id) hj).mpr hPV
        have hnotkey : j ∉ (runRed (vrFiltration n D t (dims.sup id))).1.map Prod.fst := by
          rw [← lookupCol_none_iff_not_key, ← parOf_none_iff hinv.vshape hPV]
          exact hpar
        refine ⟨⟨?_, ?_, by rw [hd0]; exact h0d⟩, hd0, trivial⟩
        · rw [hkey]
          simpa using hnotkey
        · intro hc
          exact hinv.deaths_nv j hc hPV
  · rw [Nat.zero_add]

/-- The pairs whose birth is a vertex position are counted by the vertices
whose column acquired a parent during the reduction. -/
theorem prs_PV_count {n : ℕ} [Zero α] (D : Fin n → Fin n → WithTop α)
    (t : WithTop α) (k : ℕ) (hdiag : ∀ v, D v v = 0)
    (ht : ((0 : α) : WithTop α) ≤ t) :
    (runRed (vrFiltration n D t k)).2.countP
        (fun p => decide (PVf (vrFiltration n D t k) p.1)) =
      (Finset.univ.filter (fun v : Fin n =>
        ¬ parOf (runRed (vrFiltration n D t k)).1
          ((vrFiltration n D t k).indexOf ({v} : Finset (Fin n))) = none)).card := by
  have hinv := @runRed_dim0 α _ n _ D t k hdiag ht
  have h1 : ((runRed (vrFiltration n D t k)).2.map Prod.fst).countP
      (fun x => decide (PVf (vrFiltration n D t k) x)) =
      (runRed (vrFiltration n D t k)).2.countP
        (fun p => decide (PVf (vrFiltration n D t k) p.1)) :=
    List.countP_map _ _ _
  rw [← h1, hinv.prs_keys, List.countP_reverse, List.countP_eq_length_filter]
  have hnd : (((runRed (vrFiltration n D t k)).1.map Prod.fst).filter
      (fun x => decide (PVf (vrFiltration n D t k) x))).Nodup :=
    hinv.keys_nodup.filter _
  rw [← List.toFinset_card_of_nodup hnd]
  symm
  apply Finset.card_bij
    (fun v _ => (vrFiltration n D t k).indexOf ({v} : Finset (Fin n)))
  · intro v hv
    rw [Finset.mem_filter] at hv
    rw [List.mem_toFinset, List.mem_filter]
    constructor
    · by_contra hc
      exact hv.2 (parOf_none (lookupCol_none_iff_not_key.mpr hc))
    · simp only [decide_eq_true_eq]
      exact ⟨v, vertex_mem_filtration D t k hdiag ht v, rfl⟩
  · intro v1 h1 v2 h2 heq
    exact indexOf_singleton_inj (vertex_mem_filtration D t k hdiag ht v1)
      (vertex_mem_filtration D t k hdiag ht v2) heq
  · intro x hx
    rw [List.mem_toFinset, List.mem_filter] at hx
    obtain ⟨hxk, hxPV⟩ := hx
    simp only [decide_eq_true_eq] at hxPV
    obtain ⟨v, hvmem, hvidx⟩ := hxPV
    refine ⟨v, ?_, hvidx⟩
    rw [Finset.mem_filter]
    refine ⟨Finset.mem_univ v, ?_⟩
    rw [hvidx, parOf_none_iff hinv.vshape ⟨v, hvmem, hvidx⟩,
      lookupCol_none_iff_not_key]
    simpa using hxk

/-- The vertices whose column remains unpaired (a root of the parent forest)
are in bijection with the connected components of the threshold graph. -/
theorem roots_card_eq_nComponents {n : ℕ} [Zero α] (D : Fin n → Fin n → WithTop α)
    (t : WithTop α) (k : ℕ) (hdiag : ∀ v, D v v = 0)
    (ht : ((0 : α) : WithTop α) ≤ t) :
    (Finset.univ.filter (fun v : Fin n =>
        parOf (runRed (vrFiltration n D t k)).1
          ((vrFiltration n D t k).indexOf ({v} : Finset (Fin n))) = none)).card =
      nComponents n D t := by
  have hinv := @runRed_dim0 α _ n _ D t k hdiag ht
  unfold nComponents
  rw [← Fintype.card_coe, ← Nat.card_eq_fintype_card]
  apply Nat.card_eq_of_bijective
    (fun v => Quotient.mk (thrSetoid n D t) v.1)
  constructor
  · rintro ⟨u, hu⟩ ⟨v, hv⟩ heq
    rw [Finset.mem_filter] at hu hv
    have hconn : thrConn D t u v := Quotient.exact heq
    have hroot := (hinv.conn_iff u v).mp ((thrConn_iff_prefConn D t k u v).mp hconn)
    rw [rootOf_eq_self hu.2, rootOf_eq_self hv.2] at hroot
    exact Subtype.ext (indexOf_singleton_inj
      (vertex_mem_filtration D t k hdiag ht u)
      (vertex_mem_filtration D t k hdiag ht v) hroot)
  · intro K
    obtain ⟨w, hw⟩ := Quotient.exists_rep K
    have hPVw : PVf (vrFiltration n D t k)
        ((vrFiltration n D t k).indexOf ({w} : Finset (Fin n))) :=
      ⟨w, vertex_mem_filtration D t k hdiag ht w, rfl⟩
    have hPVr := rootOf_PV hinv.vshape _ hPVw
    obtain ⟨v, hvmem, hvidx⟩ := hPVr
    have hfr : parOf (runRed (vrFiltration n D t k)).1
        ((vrFiltration n D t k).indexOf ({v} : Finset (Fin n))) = none := by
      rw [hvidx]
      exact rootOf_isRoot (parOf_decreasing _) _
    have hvroot : v ∈ Finset.univ.filter (fun v : Fin n =>
        parOf (runRed (vrFiltration n D t k)).1
          ((vrFiltration n D t k).indexOf ({v} : Finset (Fin n))) = none) :=
      Finset.mem_filter.mpr ⟨Finset.mem_univ v, hfr⟩
    refine ⟨⟨v, hvroot⟩, ?_⟩
    rw [← hw]
    apply Quotient.sound
    have hconn : prefConn (vrFiltration n D t k)
        (vrFiltration n D t k).length v w := by
      rw [hinv.conn_iff v w]
      rw [hvidx, rootOf_idem (parOf_decreasing _)]
    exact ((thrConn_iff_prefConn D t k v w).mpr hconn : thrConn D t v w)

/-- Unpaired vertex positions are counted by root vertices. -/
theorem range_roots_count {n : ℕ} [Zero α] (D : Fin n → Fin n → WithTop α)
    (t : WithTop α) (k : ℕ) (hdiag : ∀ v, D v v = 0)
    (ht : ((0 : α) : WithTop α) ≤ t) :
    (List.range (vrFiltration n D t k).length).countP
        (fun j => decide (PVf (vrFiltration n D t k) j ∧
          parOf (runRed (vrFiltration n D t k)).1 j = none)) =
      (Finset.univ.filter (fun v : Fin n =>
        parOf (runRed (vrFiltration n D t k)).1
          ((vrFiltration n D t k).indexOf ({v} : Finset (Fin n))) = none)).card := by
  rw [List.countP_eq_length_filter]
  have hnd : ((List.range (vrFiltration n D t k).length).filter
      (fun j => decide (PVf (vrFiltration n D t k) j ∧
        parOf (runRed (vrFiltration n D t k)).1 j = none))).Nodup :=
    (List.nodup_range _).filter _
  rw [← List.toFinset_card_of_nodup hnd]
  symm
  apply Finset.card_bij
    (fun v _ => (vrFiltration n D t k).indexOf ({v} : Finset (Fin n)))
  · intro v hv
    rw [Finset.mem_filter] at hv
    rw [List.mem_toFinset, List.mem_filter, List.mem_range]
    refine ⟨List.indexOf_lt_length.mpr (vertex_mem_filtration D t k hdiag ht v), ?_⟩
    simp only [decide_eq_true_eq]
    exact ⟨⟨v, vertex_mem_filtration D t k hdiag ht v, rfl⟩, hv.2⟩
  · intro v1 h1 v2 h2 heq
    exact indexOf_singleton_inj (vertex_mem_filtration D t k hdiag ht v1)
      (vertex_mem_filtration D t k hdiag ht v2) heq
  · intro x hx
    rw [List.mem_toFinset, List.mem_filter] at hx
    obtain ⟨hxr, hxp⟩ := hx
    simp only [decide_eq_true_eq] at hxp
    obtain ⟨⟨v, hvmem, hvidx⟩, hpar⟩ := hxp
    refine ⟨v, ?_, hvidx⟩
    rw [Finset.mem_filter]
    exact ⟨Finset.mem_univ v, by rw [hvidx]; exact hpar⟩

/-- Root vertices and pivoted vertices partition the vertex set. -/
theorem roots_pivoted_partition {n : ℕ} [Zero α] (D : Fin n → Fin n → WithTop α)
    (t : WithTop α) (k : ℕ) :
    (Finset.univ.filter (fun v : Fin n =>
        parOf (runRed (vrFiltration n D t k)).1
          ((vrFiltration n D t k).indexOf ({v} : Finset (Fin n))) = none)).card +
      (Finset.univ.filter (fun v : Fin n =>
        ¬ parOf (runRed (vrFiltration n D t k)).1
          ((vrFiltration n D t k).indexOf ({v} : Finset (Fin n))) = none)).card = n := by
  rw [Finset.filter_card_add_filter_neg_card_eq_card]
  simp

/-- Each component of the threshold graph owns exactly one root vertex. -/
theorem roots_unique_rep {n : ℕ} [Zero α] (D : Fin n → Fin n → WithTop α)
    (t : WithTop α) (k : ℕ) (hdiag : ∀ v, D v v = 0)
    (ht : ((0 : α) : WithTop α) ≤ t) (K : Quotient (thrSetoid n D t)) :
    ∃! v : Fin n,
      parOf (runRed (vrFiltration n D t k)).1
        ((vrFiltration n D t k).indexOf ({v} : Finset (Fin n))) = none ∧
      Quotient.mk (thrSetoid n D t) v = K := by
  have hinv := @runRed_dim0 α _ n _ D t k hdiag ht
  obtain ⟨w, hw⟩ := Quotient.exists_rep K
  have hPVw : PVf (vrFiltration n D t k)
      ((vrFiltration n D t k).indexOf ({w} : Finset (Fin n))) :=
    ⟨w, vertex_mem_filtration D t k hdiag ht w, rfl⟩
  obtain ⟨v, hvmem, hvidx⟩ := rootOf_PV hinv.vshape _ hPVw
  have hfr : parOf (runRed (vrFiltration n D t k)).1
      ((vrFiltration n D t k).indexOf ({v} : Finset (Fin n))) = none := by
    rw [hvidx]
    exact rootOf_isRoot (parOf_decreasing _) _
  refine ⟨v, ⟨hfr, ?_⟩, ?_⟩
  · rw [← hw]
    apply Quotient.sound
    have hconn : prefConn (vrFiltration n D t k)
        (vrFiltration n D t k).length v w := by
      rw [hinv.conn_iff v w]
      rw [hvidx, rootOf_idem (parOf_decreasing _)]
    exact ((thrConn_iff_prefConn D t k v w).mpr hconn : thrConn D t v w)
  · rintro u ⟨hu, huK⟩
    have hconn : thrConn D t u v := by
      have hvw : prefConn (vrFiltration n D t k)
          (vrFiltration n D t k).length v w := by
        rw [hinv.conn_iff v w]
        rw [hvidx, rootOf_idem (parOf_decreasing _)]
      have hmk : Quotient.mk (thrSetoid n D t) u = Quotient.mk (thrSetoid n D t) v :=
        (huK.trans hw.symm).trans
          (Quotient.sound ((thrConn_iff_prefConn D t k v w).mpr hvw :
            thrConn D t v w)).symm
      exact Quotient.exact hmk
    have hroot := (hinv.conn_iff u v).mp ((thrConn_iff_prefConn D t k u v).mp hconn)
    rw [rootOf_eq_self hu, rootOf_eq_self hfr] at hroot
    exact indexOf_singleton_inj (vertex_mem_filtration D t k hdiag ht u)
      (vertex_mem_filtration D t k hdiag ht v) hroot

/-- C3: for every input with a zero diagonal, a non-negative threshold, and
dimension 0 among the requested dimensions, the number of finite dimension-0
persistence pairs equals the number of points minus the number of connected
components of the threshold graph, the number of essential (infinite-death)
dimension-0 classes equals the number of connected components, and each
connected component owns exactly one unpaired (essential) vertex column. -/
theorem dim0_pairs_count {n : ℕ} [Zero α] (D : Fin n → Fin n → WithTop α)
    (t : WithTop α) (dims : Finset ℕ) (hdiag : ∀ v, D v v = 0)
    (ht : ((0 : α) : WithTop α) ≤ t) (h0d : 0 ∈ dims) :
    (persDiagram n D t dims).countP
        (fun tr => decide (tr.2.2 = 0 ∧ tr.2.1 ≠ ⊤)) =
      n - nComponents n D t ∧
    (persDiagram n D t dims).countP
        (fun tr => decide (tr.2.2 = 0 ∧ tr.2.1 = ⊤)) =
      nComponents n D t ∧
    ∀ K : Quotient (thrSetoid n D t), ∃! v : Fin n,
      parOf (runRed (vrFiltration n D t (dims.sup id))).1
        ((vrFiltration n D t (dims.sup id)).indexOf ({v} : Finset (Fin n))) =
          none ∧
      Quotient.mk (thrSetoid n D t) v = K := by
  have hroots := roots_card_eq_nComponents D t (dims.sup id) hdiag ht
  have hpart := roots_pivoted_partition D t (dims.sup id)
  refine ⟨?_, ?_, fun K => roots_unique_rep D t (dims.sup id) hdiag ht K⟩
  · rw [fin_dim0_count_aux D t dims hdiag ht h0d,
      prs_PV_count D t (dims.sup id) hdiag ht]
    omega
  · rw [ess_dim0_count_aux D t dims hdiag ht h0d,
      range_roots_count D t (dims.sup id) hdiag ht, hroots]

theorem dim0_pairs_count_witness :
    (∀ v : Fin 1, (fun _ _ => (0 : WithTop ℕ)) v v = 0) ∧
    ((0 : ℕ) : WithTop ℕ) ≤ (⊤ : WithTop ℕ) ∧
    (0 ∈ ({0} : Finset ℕ)) ∧
    ((persDiagram 1 (fun _ _ => (0 : WithTop ℕ)) ⊤ {0}).countP
        (fun tr => decide (tr.2.2 = 0 ∧ tr.2.1 ≠ ⊤)) =
      1 - nComponents 1 (fun _ _ => (0 : WithTop ℕ)) ⊤ ∧
    (persDiagram 1 (fun _ _ => (0 : WithTop ℕ)) ⊤ {0}).countP
        (fun tr => decide (tr.2.2 = 0 ∧ tr.2.1 = ⊤)) =
      nComponents 1 (fun _ _ => (0 : WithTop ℕ)) ⊤ ∧
    ∀ K : Quotient (thrSetoid 1 (fun _ _ => (0 : WithTop ℕ)) ⊤), ∃! v : Fin 1,
      parOf (runRed (vrFiltration 1 (fun _ _ => (0 : WithTop ℕ)) ⊤
          (({0} : Finset ℕ).sup id))).1
        ((vrFiltration 1 (fun _ _ => (0 : WithTop ℕ)) ⊤
          (({0} : Finset ℕ).sup id)).indexOf ({v} : Finset (Fin 1))) = none ∧
      Quotient.mk (thrSetoid 1 (fun _ _ => (0 : WithTop ℕ)) ⊤) v = K) :=
  ⟨fun _ => rfl, le_top, by decide,
    dim0_pairs_count (fun _ _ => (0 : WithTop ℕ)) ⊤ {0} (fun _ => rfl) le_top
      (by decide)⟩
